import Mathlib

/-
  Verification development for the cut-enumeration core of sat_aig_cuts
  (src/src/sat/sat_aig_cuts.h).

  The repository ships only the class header: all inline members
  (the node class, the config record with its defaults, touch/is_touched,
  inc_max_cutset_size, max_cutset_size, child) are translated directly
  from that header.  The out-of-line member bodies (add_var, add_node,
  set_root, operator(), augment, insert_cut, insert_aux, reserve,
  filter_valid_nodes, flush_roots, init_cut_set) are not part of the
  sources; each such definition below carries a doc comment starting with
  "Modelled from the spec:" and follows the natural-language specification.

  Machine unsigned integers are modelled as Nat: every quantity involved
  (array lengths, pass counters, cut-set sizes, truth tables over at most
  max_cut_width support variables) stays far below 2^32 in any execution
  the claims speak about, so wrap-around never matters; the single constant
  UINT_MAX is kept explicitly because the node class uses it as a sentinel.
-/

namespace sat

/-- The UINT_MAX sentinel used by the node class (header line 76). -/
def UINT_MAX : Nat := 4294967295

/-- Boolean operator tags, from the header enum bool_op. -/
inductive bool_op where
  | var_op
  | and_op
  | ite_op
  | xor_op
  | no_op
deriving DecidableEq, Repr

/-- A literal: a Boolean variable together with a polarity, as in sat_types.h. -/
structure literal where
  var : Nat
  sign : Bool
deriving DecidableEq, Repr

/-- Negation of a literal. -/
def literal.neg (l : literal) : literal := ⟨l.var, !l.sign⟩

/-- The node class of aig_cuts (header lines 69-92): a sign bit, an operator
tag, a child count and an offset into the literal arena. -/
structure node where
  m_sign : Bool
  m_op : bool_op
  m_size : Nat
  m_offset : Nat
deriving DecidableEq, Repr

/-- Default constructor node() (header line 75). -/
def node.mk_default : node := ⟨false, bool_op.no_op, UINT_MAX, UINT_MAX⟩

/-- Constructor node(unsigned v) for a variable leaf (header line 77). -/
def node.mk_var (v : Nat) : node := ⟨false, bool_op.var_op, 0, v⟩

/-- Constructor node(bool sign, bool_op op, unsigned nc, unsigned o) (header line 79). -/
def node.mk_node (s : Bool) (op : bool_op) (nc o : Nat) : node := ⟨s, op, nc, o⟩

/-- is_valid (header line 81): a node is valid when its offset differs from UINT_MAX. -/
def node.is_valid (n : node) : Bool := decide (n.m_offset ≠ UINT_MAX)

/-- is_var accessor (header line 83). -/
def node.is_var (n : node) : Bool := decide (n.m_op = bool_op.var_op)

/-- The configuration record with its constructor defaults (header lines 59-65). -/
structure config where
  m_max_cutset_size : Nat
  m_max_aux : Nat
  m_max_insertions : Nat
  m_full : Bool
deriving DecidableEq, Repr

/-- config() default constructor (header line 64). -/
def config.init : config := ⟨20, 5, 20, false⟩

/-- A cut: an ordered support of Boolean variables together with a truth
table, represented as a bit pattern indexed by the support assignment.
Row order follows the specification: the first support variable is the most
significant bit of the row index, so for support [a, b] the rows are
(a,b) = (0,0),(0,1),(1,0),(1,1) at bit positions 0,1,2,3. -/
structure cut where
  support : List Nat
  table : Nat
deriving DecidableEq, Repr

/-- Row index of an assignment relative to an ordered support. -/
def idxOf : List Nat → (Nat → Bool) → Nat
  | [], _ => 0
  | v :: S, σ => (cond (σ v) (2 ^ S.length) 0) + idxOf S σ

/-- The assignment encoded by a row index relative to an ordered support;
variables outside the support are false. -/
def rowAssign : List Nat → Nat → Nat → Bool
  | [], _, _ => false
  | v :: S, i, u =>
    if u = v then decide ((i / 2 ^ S.length) % 2 = 1)
    else rowAssign S (i % 2 ^ S.length) u

/-- Little-endian interpretation of a bit list as a natural number. -/
def natOfBits : List Bool → Nat
  | [] => 0
  | b :: bs => (cond b 1 0) + 2 * natOfBits bs

/-- The truth table of a Boolean function restricted to an ordered support. -/
def tableOf (S : List Nat) (f : (Nat → Bool) → Bool) : Nat :=
  natOfBits ((List.range (2 ^ S.length)).map (fun i => f (rowAssign S i)))

/-- Build a cut from a support and a semantic function. -/
def mk_cut (S : List Nat) (f : (Nat → Bool) → Bool) : cut := ⟨S, tableOf S f⟩

/-- Evaluate a cut's truth table at an assignment. -/
def cut_eval (c : cut) (σ : Nat → Bool) : Bool := c.table.testBit (idxOf c.support σ)

/-- The trivial identity cut of a variable: support [v] and the identity
table 0b10 (bit 1 set: true exactly on the row where v is true). -/
def trivial_cut (v : Nat) : cut := ⟨[v], 2⟩

/-- Evaluate a literal at an assignment. -/
def lit_eval (σ : Nat → Bool) (l : literal) : Bool := xor l.sign (σ l.var)

/-- Evaluate a child literal through one of the child variable's cuts. -/
def lit_cut_eval (l : literal) (c : cut) (σ : Nat → Bool) : Bool := xor l.sign (cut_eval c σ)

/-- Insert a value into a strictly sorted list of variables, keeping it
sorted and duplicate-free. -/
def insSorted (u : Nat) : List Nat → List Nat
  | [] => [u]
  | x :: xs => if u < x then u :: x :: xs else if x < u then x :: insSorted u xs else x :: xs

/-- Sorted union of two supports. -/
def mergeS (xs ys : List Nat) : List Nat := ys.foldl (fun acc u => insSorted u acc) xs

/-- Modelled from the spec: the bound on cut support size ("Support size is
bounded", an implementation detail of the external cut-set collection). -/
def max_cut_width : Nat := 5

/-- child (header line 140): read a node's idx-th child from the literal arena. -/
def child (lits : List literal) (n : node) (idx : Nat) : literal :=
  lits.getD (n.m_offset + idx) ⟨0, false⟩

/-- The full child list of a node, read from the literal arena. -/
def childs (lits : List literal) (n : node) : List literal :=
  (List.range n.m_size).map (child lits n)

/-- Modelled from the spec: the Boolean function denoted by a node (glossary:
var, AND, XOR, if-then-else gate, each with an optional output inversion;
a size-0 AND is the constant whose value the sign selects).  The missing
source is aig_cuts::eval in the absent sat_aig_cuts.cpp. -/
def eval_node (lits : List literal) (n : node) (σ : Nat → Bool) : Bool :=
  match n.m_op with
  | bool_op.var_op => xor n.m_sign (σ n.m_offset)
  | bool_op.and_op => xor n.m_sign ((childs lits n).all (lit_eval σ))
  | bool_op.xor_op => xor n.m_sign ((childs lits n).foldr (fun l b => xor (lit_eval σ l) b) false)
  | bool_op.ite_op =>
    xor n.m_sign (if n.m_size = 3 then
      cond (lit_eval σ (child lits n 0)) (lit_eval σ (child lits n 1)) (lit_eval σ (child lits n 2))
    else false)
  | bool_op.no_op => false

/-- Binary truth-table combination selected by a node operator. -/
def op2 : bool_op → Bool → Bool → Bool
  | bool_op.and_op, a, b => a && b
  | bool_op.xor_op, a, b => xor a b
  | _, _, _ => false

/-- Pair a sign with one child cut (the 1-ary composition of the spec). -/
def lift1 (sgn : Bool) (l : literal) (c : cut) : cut :=
  mk_cut c.support (fun σ => xor sgn (lit_cut_eval l c σ))

/-- Modelled from the spec: 2-ary AND/XOR composition — compose a pair of
child cuts over the merged support unless it exceeds the width bound,
honoring the node's overall sign (missing source: aig_cuts::augment_aig2). -/
def combine2 (op : bool_op) (sgn : Bool) (l1 l2 : literal) (c1 c2 : cut) : Option cut :=
  if (mergeS c1.support c2.support).length ≤ max_cut_width then
    some (mk_cut (mergeS c1.support c2.support)
      (fun σ => xor sgn (op2 op (lit_cut_eval l1 c1 σ) (lit_cut_eval l2 c2 σ))))
  else none

/-- Modelled from the spec: ITE composition over the cross product of the
three children's cuts (missing source: aig_cuts::augment_ite). -/
def combine3 (sgn : Bool) (l1 l2 l3 : literal) (c1 c2 c3 : cut) : Option cut :=
  if (mergeS (mergeS c1.support c2.support) c3.support).length ≤ max_cut_width then
    some (mk_cut (mergeS (mergeS c1.support c2.support) c3.support) (fun σ =>
      xor sgn (cond (lit_cut_eval l1 c1 σ) (lit_cut_eval l2 c2 σ) (lit_cut_eval l3 c3 σ))))
  else none

/-- Extend one partial composition by one cut of the next child, discarding
the extension when the merged support exceeds the width bound. -/
def combineP (op : bool_op) (l : literal) (p c : cut) : Option cut :=
  if (mergeS p.support c.support).length ≤ max_cut_width then
    some (mk_cut (mergeS p.support c.support)
      (fun σ => op2 op (cut_eval p σ) (lit_cut_eval l c σ)))
  else none

/-- One folding step of the N-ary composition: extend every partial cut by
every cut of the next child. -/
def nstep (op : bool_op) (cutsOf : Nat → List cut) (acc : List cut) (l : literal) : List cut :=
  acc.flatMap (fun p => (cutsOf l.var).filterMap (combineP op l p))

/-- Modelled from the spec: N-ary AND/XOR composition by repeated folding
across the children's cut-sets (missing source: aig_cuts::augment_aigN). -/
def nary_cands (op : bool_op) (sgn : Bool) (cutsOf : Nat → List cut) : List literal → List cut
  | [] => []
  | l0 :: rest =>
    (rest.foldl (nstep op cutsOf) ((cutsOf l0.var).map (lift1 false l0))).map
      (fun p => mk_cut p.support (fun σ => xor sgn (cut_eval p σ)))

/-- Modelled from the spec: the derived cuts a node definition offers to its
variable's cut-set, by the node-specific composition procedures of the
Cut Enumerator (0-ary constant, 1-ary sign propagation, 2-ary and N-ary
AND/XOR, 3-ary ITE).  Dependency order is realized by increasing variable
order: a definition one of whose children does not precede the head is
treated as potentially cyclic and defensively not expanded, matching the
spec's instruction to skip/break on cyclic definitions.  Variable nodes
produce nothing (their cut-set already holds the trivial cut), and any
malformed shape yields no cuts, the spec's silent degradation. -/
def candidates (lits : List literal) (cutsOf : Nat → List cut) (v : Nat) (n : node) : List cut :=
  if (childs lits n).all (fun l => decide (l.var < v)) then
    match n.m_op, n.m_size with
    | bool_op.and_op, 0 => [mk_cut [] (fun _ => xor n.m_sign true)]
    | bool_op.and_op, 1 => (cutsOf (child lits n 0).var).map (lift1 n.m_sign (child lits n 0))
    | bool_op.xor_op, 1 => (cutsOf (child lits n 0).var).map (lift1 n.m_sign (child lits n 0))
    | bool_op.and_op, 2 =>
      (cutsOf (child lits n 0).var).flatMap (fun c1 =>
        (cutsOf (child lits n 1).var).filterMap (fun c2 =>
          combine2 bool_op.and_op n.m_sign (child lits n 0) (child lits n 1) c1 c2))
    | bool_op.xor_op, 2 =>
      (cutsOf (child lits n 0).var).flatMap (fun c1 =>
        (cutsOf (child lits n 1).var).filterMap (fun c2 =>
          combine2 bool_op.xor_op n.m_sign (child lits n 0) (child lits n 1) c1 c2))
    | bool_op.ite_op, 3 =>
      (cutsOf (child lits n 0).var).flatMap (fun c1 =>
        (cutsOf (child lits n 1).var).flatMap (fun c2 =>
          (cutsOf (child lits n 2).var).filterMap (fun c3 =>
            combine3 n.m_sign (child lits n 0) (child lits n 1) (child lits n 2) c1 c2 c3)))
    | bool_op.and_op, _ + 3 => nary_cands bool_op.and_op n.m_sign cutsOf (childs lits n)
    | bool_op.xor_op, _ + 3 => nary_cands bool_op.xor_op n.m_sign cutsOf (childs lits n)
    | _, _ => []
  else []

/-- Does the cut-set already hold a cut identical to c, or one whose support
is contained in c's support (subsumption)? -/
def subsumed_or_eq (cs : List cut) (c : cut) : Bool :=
  cs.any (fun d => decide (d = c) || d.support.all (fun u => decide (u ∈ c.support)))

/-- A cut may be evicted unless it is the owning variable's trivial cut,
which the data model requires every cut-set to keep. -/
def evictable (v : Nat) (d : cut) : Bool := !(decide (d = trivial_cut v))

/-- Support size of the worst evictable cut (0 when none is evictable). -/
def worst_size (v : Nat) (cs : List cut) : Nat :=
  (cs.filter (evictable v)).foldl (fun a d => max a d.support.length) 0

/-- Remove the first evictable cut of the given (maximal) support size:
the worst cut by support size, oldest first. -/
def evict_worst (v w : Nat) : List cut → List cut
  | [] => []
  | d :: t => if evictable v d && decide (d.support.length = w) then t else d :: evict_worst v w t

/-- Modelled from the spec: insert_cut accepts a derived cut unless it is
subsumed by or syntactically identical to an existing cut; if acceptance
would exceed the per-variable maximum, the worst cut (by support size, then
recency) is evicted first, and a candidate no better than the worst is
silently not admitted.  The trivial cut is never evicted, per the data
model's invariant that every cut-set always owns it. -/
def insert_cut (cap v : Nat) (cs : List cut) (c : cut) : List cut :=
  if subsumed_or_eq cs c then cs
  else if cs.length < cap then cs ++ [c]
  else if cs.any (evictable v) && decide (c.support.length < worst_size v cs) then
    evict_worst v (worst_size v cs) cs ++ [c]
  else cs

/-- Stability invariant of insert_cut: a cut once offered to a cut-set is
permanently accounted for — it is present, or subsumed by a present cut, or
the set is at capacity with every evictable member at least as good. -/
def ins_inv (cap v : Nat) (c : cut) (cs : List cut) : Prop :=
  c ∈ cs ∨ (∃ d ∈ cs, d.support.Nodup ∧ d.support ⊆ c.support) ∨
  (cap ≤ cs.length ∧ ∀ d ∈ cs, evictable v d = true → d.support.length ≤ c.support.length)

/-- The state of one aig_cuts instance (header lines 93-108), restricted to
the fields the verified operations read or write.  m_roots_applied and
m_all_defs are history fields: they record the root equations already
flattened into the graph and every node definition ever stored (including
later-evicted alternatives), so that the consistency predicate below can
keep constraining assignments by facts the engine has already used;
they are never read by the executable operations' control flow. -/
structure aig_cuts where
  m_config : config
  m_aig : List (List node)
  m_literals : List literal
  m_cuts : List (List cut)
  m_max_cutset_size : List Nat
  m_last_touched : List Nat
  m_num_cut_calls : Nat
  m_roots : List (Nat × literal)
  m_roots_applied : List (Nat × literal)
  m_all_defs : List (Nat × node)
deriving DecidableEq, Repr

namespace aig_cuts

/-- A freshly constructed aig_cuts instance: default configuration, empty
stores, zero enumeration calls. -/
def init : aig_cuts := ⟨config.init, [], [], [], [], [], 0, [], [], []⟩

/-- Modelled from the spec: init_cut_set creates a variable's initial
cut-set, holding exactly its trivial identity cut. -/
def init_cut_set (id : Nat) : List cut := [trivial_cut id]

/-- Pad a list up to length k, filling new positions by index. -/
def padTo {α : Type} (l : List α) (k : Nat) (f : Nat → α) : List α :=
  l ++ (List.range' l.length (k - l.length)).map f

/-- Modelled from the spec: reserve defensively grows the per-variable
backing storage so out-of-range variables never fail; every new variable
receives an empty definition list, its trivial identity cut, the default
cut-set capacity and a zero touch stamp. -/
def reserve (st : aig_cuts) (k : Nat) : aig_cuts :=
  { st with
    m_aig := padTo st.m_aig k (fun _ => []),
    m_cuts := padTo st.m_cuts k init_cut_set,
    m_max_cutset_size := padTo st.m_max_cutset_size k (fun _ => st.m_config.m_max_cutset_size),
    m_last_touched := padTo st.m_last_touched k (fun _ => 0) }

/-- The modulus of the header's 32-bit unsigned arithmetic: every value
stored in an unsigned field, and every unsigned sum or product, wraps
modulo 2^32. -/
def u32 (n : Nat) : Nat := n % 4294967296

/-- touch (header line 175): stamp a variable with the current pass.  The
stamp v + m_num_cut_calls * m_aig.size() is computed in 32-bit unsigned
arithmetic and wraps modulo 2^32. -/
def touch (st : aig_cuts) (v : Nat) : aig_cuts :=
  { st with m_last_touched :=
      st.m_last_touched.set v (u32 (v + st.m_num_cut_calls * st.m_aig.length)) }

/-- is_touched (header line 112): a variable is stale when its stamp plus the
store size reaches the current pass threshold.  Both sides of the header's
comparison are 32-bit unsigned expressions and wrap modulo 2^32. -/
def is_touched (st : aig_cuts) (v : Nat) : Bool :=
  decide (u32 (st.m_last_touched.getD v 0 + st.m_aig.length) ≥
    u32 (st.m_num_cut_calls * st.m_aig.length))

/-- Modelled from the spec: the staleness window behind the two-argument
is_touched(v, n) declared at header line 110, whose body is not under src.
The spec's Cut Enumerator re-expands the definitions invalidated during the
current or the previous pass, and its determinism property (re-running the
enumerator without intervening mutation yields an identical collection)
requires that window to only shrink as the pass counter advances, so the
missing recomputation test is modelled with the exact comparison of the
stamp against the pass threshold over unbounded naturals. -/
def stale (st : aig_cuts) (v : Nat) : Bool :=
  decide (st.m_last_touched.getD v 0 + st.m_aig.length ≥
    st.m_num_cut_calls * st.m_aig.length)

/-- Modelled from the spec: the two-argument is_touched(v, n) declared at
header line 110 — a definition needs recomputation when its head or any of
its children lies in the staleness window. -/
def is_touched_node (st : aig_cuts) (v : Nat) (n : node) : Bool :=
  stale st v || (childs st.m_literals n).any (fun l => stale st l.var)

/-- max_cutset_size (header line 117). -/
def max_cutset_size (st : aig_cuts) (v : Nat) : Nat :=
  if v = UINT_MAX then st.m_config.m_max_cutset_size else st.m_max_cutset_size.getD v 0

/-- Modelled from the spec: add_var registers a leaf variable — it grows the
backing storage (which creates the trivial identity cut) and records the
variable's leaf node definition. -/
def add_var (st : aig_cuts) (v : Nat) : aig_cuts :=
  let st1 := reserve st (v + 1)
  if node.mk_var v ∈ st1.m_aig.getD v [] then st1
  else { st1 with
    m_aig := st1.m_aig.set v (st1.m_aig.getD v [] ++ [node.mk_var v]),
    m_all_defs := st1.m_all_defs ++ [(v, node.mk_var v)] }

/-- Child count of the worst stored alternative definition. -/
def worst_def_size (defs : List node) : Nat := defs.foldl (fun a d => max a d.m_size) 0

/-- Remove the first alternative definition of the given (maximal) child count. -/
def evict_worst_def (w : Nat) : List node → List node
  | [] => []
  | d :: t => if d.m_size = w then t else d :: evict_worst_def w t

/-- Modelled from the spec: insert_aux stores a new alternative definition
unless the variable already holds the configured maximum number of
alternatives; in that case the definition is stored only when it has
strictly fewer children than the worst existing alternative, which is
evicted to make room, and is silently ignored otherwise. -/
def insert_aux (cfg : config) (n : node) (defs : List node) : Option (List node) :=
  if defs.length < cfg.m_max_aux then some (defs ++ [n])
  else if n.m_size < worst_def_size defs then some (evict_worst_def (worst_def_size defs) defs ++ [n])
  else none

/-- Modelled from the spec: add_node registers a new alternative definition
for head.var(), built from op and the argument literals (appended to the
literal arena), storing head's sign as the node's sign; when the definition
is stored the target variable is touched, and a rejected definition leaves
the state unchanged beyond the defensive reserve. -/
def add_node (st : aig_cuts) (head : literal) (op : bool_op) (args : List literal) : aig_cuts :=
  let v := head.var
  let st1 := reserve st (v + 1)
  let n : node := node.mk_node head.sign op args.length st1.m_literals.length
  match insert_aux st1.m_config n (st1.m_aig.getD v []) with
  | some defs =>
    touch { st1 with
      m_literals := st1.m_literals ++ args,
      m_aig := st1.m_aig.set v defs,
      m_all_defs := st1.m_all_defs ++ [(v, n)] } v
  | none => st1

/-- Modelled from the spec: set_root records that v's canonical literal is
now r; the pending pair is flattened into the graph by the next
enumeration pass. -/
def set_root (st : aig_cuts) (v : Nat) (r : literal) : aig_cuts :=
  { st with m_roots := st.m_roots ++ [(v, r)] }

/-- inc_max_cutset_size (header line 168): raise v's cut-set capacity by 10
(the += on the unsigned capacity wraps modulo 2^32) and touch v. -/
def inc_max_cutset_size (st : aig_cuts) (v : Nat) : aig_cuts :=
  touch { st with
    m_max_cutset_size :=
      st.m_max_cutset_size.set v (u32 (st.m_max_cutset_size.getD v 0 + 10)) } v

/-- Modelled from the spec: filter_valid_nodes selects the variables whose
definition list holds a valid node. -/
def filter_valid_nodes (st : aig_cuts) : List Nat :=
  (List.range st.m_aig.length).filter (fun v => (st.m_aig.getD v []).any node.is_valid)

/-- A definition is (re)expanded when it is valid and its head or a child is
touched. -/
def applicable (st : aig_cuts) (v : Nat) (n : node) : Bool :=
  n.is_valid && is_touched_node st v n

/-- The current cut-set of a variable. -/
def cuts_of (st : aig_cuts) (u : Nat) : List cut := st.m_cuts.getD u []

/-- All cuts derived for a variable in one pass, across its applicable
alternative definitions. -/
def big_cands (st : aig_cuts) (v : Nat) : List cut :=
  ((st.m_aig.getD v []).filter (applicable st v)).flatMap (candidates st.m_literals (cuts_of st) v)

/-- Modelled from the spec: augment one touched variable — offer every
derived cut to the variable's cut-set through insert_cut. -/
def augment_id (st : aig_cuts) (v : Nat) : aig_cuts :=
  let cs := (big_cands st v).foldl (insert_cut (max_cutset_size st v) v) (cuts_of st v)
  { st with m_cuts := st.m_cuts.set v cs }

/-- Modelled from the spec: one augmentation sweep over the variables with
valid definitions, in dependency (increasing-index) order. -/
def augment_all (st : aig_cuts) : aig_cuts := (filter_valid_nodes st).foldl augment_id st

/-- Substitute one root pair into a literal, canceling double negations. -/
def root_subst (p : Nat × literal) (l : literal) : literal :=
  if l.var = p.1 then (if l.sign then p.2.neg else p.2) else l

/-- Re-establish the data-model invariant that a cut-set owns its trivial cut. -/
def ensure_trivial (u : Nat) (cs : List cut) : List cut :=
  if trivial_cut u ∈ cs then cs else trivial_cut u :: cs

/-- Modelled from the spec: flatten one root pair — rewrite every node child
in the literal arena to the canonical literal, and retire every cut whose
support mentions the remapped variable (a stale support must not survive a
flatten pass; rewriting it is represented conservatively by dropping the
entry), re-establishing the trivial cut each cut-set always owns. -/
def apply_root (st : aig_cuts) (p : Nat × literal) : aig_cuts :=
  { st with
    m_literals := st.m_literals.map (root_subst p),
    m_cuts := (List.range st.m_cuts.length).map (fun u =>
      ensure_trivial u ((st.m_cuts.getD u []).filter (fun d => !(decide (p.1 ∈ d.support))))) }

/-- Modelled from the spec: flush_roots applies every pending root pair in
order (chains resolve by sequential substitution), then retires the pending
queue into the permanent record of applied roots. -/
def flush_roots (st : aig_cuts) : aig_cuts :=
  if st.m_roots = [] then st
  else
    let st1 := st.m_roots.foldl apply_root st
    { st1 with m_roots := [], m_roots_applied := st1.m_roots_applied ++ st.m_roots }

/-- Modelled from the spec: operator() — flush pending roots, run one
touch-aware augmentation sweep over all valid definitions, and advance the
pass counter.  The per-pass insertion budget of the configuration bounds
work in the source; the spec's description of the enumeration procedure
(section 4.2) composes and offers every derived cut, so the model does the
same and keeps the budget as configuration data only. -/
def enumerate (st : aig_cuts) : aig_cuts :=
  let st1 := augment_all (flush_roots st)
  { st1 with m_num_cut_calls := st1.m_num_cut_calls + 1 }

/-- The public operations of the engine (section 6, Inbound). -/
inductive Op where
  | add_var (v : Nat)
  | add_node (head : literal) (op : bool_op) (args : List literal)
  | set_root (v : Nat) (r : literal)
  | inc_max_cutset_size (v : Nat)
  | enumerate
deriving DecidableEq, Repr

/-- Apply one public operation. -/
def step (st : aig_cuts) : Op → aig_cuts
  | Op.add_var v => add_var st v
  | Op.add_node h op args => add_node st h op args
  | Op.set_root v r => set_root st v r
  | Op.inc_max_cutset_size v => inc_max_cutset_size st v
  | Op.enumerate => enumerate st

/-- The state reached from a fresh instance by a sequence of public operations. -/
def run (ops : List Op) : aig_cuts := ops.foldl step init

/-- A public operation is capacity-safe on a state when the one unsigned
capacity it bumps does not wrap: inc_max_cutset_size's += 10 stays below
2^32.  Every other operation moves capacities only upward or not at all. -/
def cap_safe (st : aig_cuts) : Op → Bool
  | Op.inc_max_cutset_size v => decide (st.m_max_cutset_size.getD v 0 + 10 < 4294967296)
  | _ => true

/-- Along a run, every capacity increment is wrap-free. -/
def ops_cap_safe : aig_cuts → List Op → Bool
  | _, [] => true
  | st, op :: rest => cap_safe st op && ops_cap_safe (step st op) rest

/-- The capacity regime: every variable's capacity is at least the default
and bounds the cardinality of its cut-set. -/
def cap_inv (st : aig_cuts) : Prop :=
  ∀ u < st.m_aig.length, 20 ≤ st.m_max_cutset_size.getD u 0 ∧
    (st.m_cuts.getD u []).length ≤ st.m_max_cutset_size.getD u 0

/-- An assignment is consistent with the engine's accumulated knowledge when
it satisfies every node definition ever stored (each is a fact extracted
from the clause database) and every recorded root equivalence (each was
confirmed by the external validator before being recorded). -/
def consistent (st : aig_cuts) (σ : Nat → Bool) : Prop :=
  (∀ p ∈ st.m_all_defs, σ p.1 = eval_node st.m_literals p.2 σ) ∧
  (∀ p ∈ st.m_roots, σ p.1 = lit_eval σ p.2) ∧
  (∀ p ∈ st.m_roots_applied, σ p.1 = lit_eval σ p.2)

/-- Well-formedness of a cut: strictly sorted support within the width bound. -/
def cut_wf (c : cut) : Prop :=
  c.support.Pairwise (· < ·) ∧ c.support.length ≤ max_cut_width

/-- The arena invariant of a node: a gate's children lie inside the literal
arena (variable leaves index no arena storage). -/
def arena_ok (lits : List literal) (n : node) : Prop :=
  (n.m_op = bool_op.and_op ∨ n.m_op = bool_op.xor_op ∨ n.m_op = bool_op.ite_op) →
    n.m_offset + n.m_size ≤ lits.length

/-- The state invariant maintained by every public operation. -/
structure Wf (st : aig_cuts) : Prop where
  cfg : st.m_config = config.init
  len_cuts : st.m_cuts.length = st.m_aig.length
  len_max : st.m_max_cutset_size.length = st.m_aig.length
  len_touch : st.m_last_touched.length = st.m_aig.length
  triv_mem : ∀ u < st.m_aig.length, trivial_cut u ∈ st.m_cuts.getD u []
  cuts_wf : ∀ u, ∀ c ∈ st.m_cuts.getD u [], cut_wf c
  sound : ∀ u, ∀ c ∈ st.m_cuts.getD u [], ∀ σ, consistent st σ → cut_eval c σ = σ u
  defs_sub : ∀ v, ∀ n ∈ st.m_aig.getD v [], (v, n) ∈ st.m_all_defs
  arena : ∀ p ∈ st.m_all_defs, arena_ok st.m_literals p.2

end aig_cuts

end sat

namespace sat

namespace aig_cuts

theorem mem_getD_nil {α : Type} {l : List (List α)} {u : Nat} {c : α}
    (h : c ∈ l.getD u []) : u < l.length := by
  by_contra hu
  push_neg at hu
  rw [List.getD_eq_getElem?_getD, List.getElem?_eq_none hu] at h
  simp at h

theorem getD_set_self {α : Type} {l : List α} {v : Nat} (x d : α) (h : v < l.length) :
    (l.set v x).getD v d = x := by
  rw [List.getD_eq_getElem?_getD, List.getElem?_set_self h]
  rfl

theorem getD_set_ne {α : Type} {l : List α} {w v : Nat} (x d : α) (h : w ≠ v) :
    (l.set w x).getD v d = l.getD v d := by
  rw [List.getD_eq_getElem?_getD, List.getElem?_set_ne h, ← List.getD_eq_getElem?_getD]

theorem set_getD_self {α : Type} {l : List α} {v : Nat} (d : α) (h : v < l.length) :
    l.set v (l.getD v d) = l := by
  apply List.ext_getElem?
  intro n
  rcases eq_or_ne v n with rfl | hne
  · rw [List.getElem?_set_self h, List.getD_eq_getElem?_getD,
      List.getElem?_eq_getElem h]
    rfl
  · exact List.getElem?_set_ne hne

theorem length_padTo {α : Type} (l : List α) (k : Nat) (f : Nat → α) :
    (padTo l k f).length = max l.length k := by
  simp [padTo]
  omega

theorem getD_padTo_lt {α : Type} {l : List α} {k u : Nat} (f : Nat → α) (d : α)
    (h : u < l.length) : (padTo l k f).getD u d = l.getD u d := by
  simp only [padTo, List.getD_eq_getElem?_getD, List.getElem?_append]
  rw [if_pos h]

theorem getD_padTo_ge {α : Type} {l : List α} {k u : Nat} (f : Nat → α) (d : α)
    (h1 : l.length ≤ u) (h2 : u < k) : (padTo l k f).getD u d = f u := by
  simp only [padTo, List.getD_eq_getElem?_getD, List.getElem?_append]
  rw [if_neg (by omega), List.getElem?_map, List.getElem?_range' _ _ (by omega)]
  show f (l.length + 1 * (u - l.length)) = f u
  congr 1
  omega

end aig_cuts

end sat

namespace sat

namespace aig_cuts

/-- C8: a freshly constructed aig_cuts instance has the configuration
defaults of the header: maximum cut-set size per node 20, maximum
alternative definitions per variable 5, maximum insertions per enumeration
call 20, and the exhaustive composition flag false. -/
theorem C8_config_defaults :
    config.init.m_max_cutset_size = 20 ∧ config.init.m_max_aux = 5 ∧
    config.init.m_max_insertions = 20 ∧ config.init.m_full = false ∧
    init.m_config = config.init :=
  ⟨rfl, rfl, rfl, rfl, rfl⟩

/-- C10: a node is valid exactly when its offset differs from UINT_MAX: the
default-constructed node (op no_op, offset UINT_MAX) is invalid and is
excluded by the valid-node filter, while the var constructor and the
explicit constructor produce a valid node exactly when the stored offset is
not UINT_MAX — so a var node created for variable index UINT_MAX is treated
as having no definition. -/
theorem C10_node_validity :
    node.mk_default.is_valid = false ∧ node.mk_default.m_op = bool_op.no_op ∧
    (∀ v : Nat, (node.mk_var v).is_valid = decide (v ≠ UINT_MAX)) ∧
    (∀ (s : Bool) (op : bool_op) (nc o : Nat),
      (node.mk_node s op nc o).is_valid = decide (o ≠ UINT_MAX)) ∧
    (∀ (st : aig_cuts) (v : Nat), (∀ n ∈ st.m_aig.getD v [], n.is_valid = false) →
      v ∉ filter_valid_nodes st) := by
  refine ⟨by decide, rfl, fun v => rfl, fun s op nc o => rfl, ?_⟩
  intro st v h hmem
  rw [filter_valid_nodes, List.mem_filter] at hmem
  rcases hmem with ⟨-, hany⟩
  rw [List.any_eq_true] at hany
  rcases hany with ⟨n, hn, hval⟩
  rw [h n hn] at hval
  cases hval

theorem C10_witness :
    (0 : Nat) ∉ filter_valid_nodes ⟨config.init, [[node.mk_default]], [], [], [], [], 0, [], [], []⟩ :=
  C10_node_validity.2.2.2.2 ⟨config.init, [[node.mk_default]], [], [], [], [], 0, [], [], []⟩ 0
    (by decide)

/-- C9 (corrected): touch(v) stamps m_last_touched[v] with
v + m_num_cut_calls * m_aig.size(), computed in wrapping 32-bit unsigned
arithmetic.  Provided the stamp window does not overflow
(v + (m_num_cut_calls + 1) * m_aig.size() < 2^32), the stored stamp is
exactly v + m_num_cut_calls * m_aig.size(), is_touched(v) holds immediately
afterwards, and it still holds after m_num_cut_calls is incremented once
with m_aig.size() unchanged — a touched variable is stale for the pass in
which it was touched and for the next pass.  At overflow states the
unconditional claim fails: the companion counterexample exhibits a state
where is_touched(v) is false immediately after touch(v). -/
theorem C9_touch_window (st : aig_cuts) (v : Nat) (hv : v < st.m_last_touched.length)
    (hno : v + (st.m_num_cut_calls + 1) * st.m_aig.length < 4294967296) :
    (touch st v).m_last_touched.getD v 0 = v + st.m_num_cut_calls * st.m_aig.length ∧
    is_touched (touch st v) v = true ∧
    is_touched { touch st v with m_num_cut_calls := st.m_num_cut_calls + 1 } v = true := by
  have hsm : (st.m_num_cut_calls + 1) * st.m_aig.length =
      st.m_num_cut_calls * st.m_aig.length + st.m_aig.length := Nat.succ_mul _ _
  have hset0 : (touch st v).m_last_touched.getD v 0 =
      u32 (v + st.m_num_cut_calls * st.m_aig.length) :=
    getD_set_self _ _ hv
  have hset : (touch st v).m_last_touched.getD v 0 =
      v + st.m_num_cut_calls * st.m_aig.length := by
    rw [hset0]
    show (v + st.m_num_cut_calls * st.m_aig.length) % 4294967296 = _
    rw [Nat.mod_eq_of_lt (by omega)]
  refine ⟨hset, ?_, ?_⟩
  · rw [is_touched, decide_eq_true_iff]
    show u32 ((touch st v).m_last_touched.getD v 0 + st.m_aig.length) ≥
      u32 (st.m_num_cut_calls * st.m_aig.length)
    rw [hset]
    show (v + st.m_num_cut_calls * st.m_aig.length + st.m_aig.length) % 4294967296 ≥
      (st.m_num_cut_calls * st.m_aig.length) % 4294967296
    rw [Nat.mod_eq_of_lt (by omega), Nat.mod_eq_of_lt (by omega)]
    omega
  · rw [is_touched, decide_eq_true_iff]
    show u32 ((touch st v).m_last_touched.getD v 0 + st.m_aig.length) ≥
      u32 ((st.m_num_cut_calls + 1) * st.m_aig.length)
    rw [hset]
    show (v + st.m_num_cut_calls * st.m_aig.length + st.m_aig.length) % 4294967296 ≥
      ((st.m_num_cut_calls + 1) * st.m_aig.length) % 4294967296
    rw [Nat.mod_eq_of_lt (by omega), Nat.mod_eq_of_lt (by omega)]
    omega

theorem C9_witness :
    (touch (run [Op.add_var 0]) 0).m_last_touched.getD 0 0 =
      0 + (run [Op.add_var 0]).m_num_cut_calls * (run [Op.add_var 0]).m_aig.length ∧
    is_touched (touch (run [Op.add_var 0]) 0) 0 = true ∧
    is_touched { touch (run [Op.add_var 0]) 0 with
      m_num_cut_calls := (run [Op.add_var 0]).m_num_cut_calls + 1 } 0 = true :=
  C9_touch_window (run [Op.add_var 0]) 0 (by decide) (by decide)

/-- At an overflow state the literal claim fails: with 2 variables and
2^31 - 1 completed passes, the stamp of touch(1) wraps to 2^32 - 1 and the
unsigned sum stamp + size wraps past the pass threshold, so is_touched(1)
is false immediately after touch(1). -/
theorem C9_counterexample :
    1 < (⟨config.init, [[], []], [], [[], []], [20, 20], [0, 0],
      2147483647, [], [], []⟩ : aig_cuts).m_last_touched.length ∧
    is_touched (touch (⟨config.init, [[], []], [], [[], []], [20, 20], [0, 0],
      2147483647, [], [], []⟩ : aig_cuts) 1) 1 = false :=
  ⟨by decide, by decide⟩

/-- C7 (corrected): inc_max_cutset_size(v) bumps v's cut-set capacity and
touches v, leaving every other variable's capacity, the AIG store, the
literal arena and all cut-sets unchanged.  Both the += 10 on the unsigned
capacity and the touch stamp wrap modulo 2^32; provided neither wraps
(capacity + 10 < 2^32, and the stamp window v + (passes + 1) * size stays
below 2^32), the capacity rises by exactly 10 and is_touched(v) holds
afterwards.  At overflow states the exact +10 fails: the companion
counterexample bumps a capacity of 2^32 - 1 to 9. -/
theorem C7_inc_max_cutset_size (st : aig_cuts) (v : Nat)
    (hv1 : v < st.m_max_cutset_size.length) (hv2 : v < st.m_last_touched.length)
    (hcap : st.m_max_cutset_size.getD v 0 + 10 < 4294967296)
    (hno : v + (st.m_num_cut_calls + 1) * st.m_aig.length < 4294967296) :
    (inc_max_cutset_size st v).m_max_cutset_size.getD v 0 =
      st.m_max_cutset_size.getD v 0 + 10 ∧
    is_touched (inc_max_cutset_size st v) v = true ∧
    (∀ u, u ≠ v →
      (inc_max_cutset_size st v).m_max_cutset_size.getD u 0 =
        st.m_max_cutset_size.getD u 0) ∧
    (inc_max_cutset_size st v).m_aig = st.m_aig ∧
    (inc_max_cutset_size st v).m_literals = st.m_literals ∧
    (inc_max_cutset_size st v).m_cuts = st.m_cuts := by
  have hsm : (st.m_num_cut_calls + 1) * st.m_aig.length =
      st.m_num_cut_calls * st.m_aig.length + st.m_aig.length := Nat.succ_mul _ _
  have hcap2 : (inc_max_cutset_size st v).m_max_cutset_size.getD v 0 =
      st.m_max_cutset_size.getD v 0 + 10 := by
    have h1 : (inc_max_cutset_size st v).m_max_cutset_size.getD v 0 =
        u32 (st.m_max_cutset_size.getD v 0 + 10) := getD_set_self _ _ hv1
    rw [h1]
    show (st.m_max_cutset_size.getD v 0 + 10) % 4294967296 = _
    rw [Nat.mod_eq_of_lt (by omega)]
  refine ⟨hcap2, ?_, fun u hu => getD_set_ne _ _ (fun h => hu h.symm), rfl, rfl, rfl⟩
  rw [is_touched, decide_eq_true_iff]
  show u32 ((st.m_last_touched.set v
      (u32 (v + st.m_num_cut_calls * st.m_aig.length))).getD v 0 + st.m_aig.length) ≥
    u32 (st.m_num_cut_calls * st.m_aig.length)
  rw [getD_set_self _ _ hv2]
  show (u32 (v + st.m_num_cut_calls * st.m_aig.length) + st.m_aig.length) % 4294967296 ≥
    (st.m_num_cut_calls * st.m_aig.length) % 4294967296
  rw [show u32 (v + st.m_num_cut_calls * st.m_aig.length) =
      v + st.m_num_cut_calls * st.m_aig.length from Nat.mod_eq_of_lt (by omega)]
  rw [Nat.mod_eq_of_lt (by omega), Nat.mod_eq_of_lt (by omega)]
  omega

theorem C7_witness :
    (inc_max_cutset_size (run [Op.add_var 0]) 0).m_max_cutset_size.getD 0 0 =
      (run [Op.add_var 0]).m_max_cutset_size.getD 0 0 + 10 ∧
    is_touched (inc_max_cutset_size (run [Op.add_var 0]) 0) 0 = true ∧
    (∀ u, u ≠ 0 →
      (inc_max_cutset_size (run [Op.add_var 0]) 0).m_max_cutset_size.getD u 0 =
        (run [Op.add_var 0]).m_max_cutset_size.getD u 0) ∧
    (inc_max_cutset_size (run [Op.add_var 0]) 0).m_aig = (run [Op.add_var 0]).m_aig ∧
    (inc_max_cutset_size (run [Op.add_var 0]) 0).m_literals = (run [Op.add_var 0]).m_literals ∧
    (inc_max_cutset_size (run [Op.add_var 0]) 0).m_cuts = (run [Op.add_var 0]).m_cuts :=
  C7_inc_max_cutset_size (run [Op.add_var 0]) 0 (by decide) (by decide) (by decide) (by decide)

/-- At an overflow state the literal claim fails: bumping a capacity of
2^32 - 1 stores (2^32 - 1 + 10) mod 2^32 = 9, not 2^32 + 9. -/
theorem C7_counterexample :
    0 < (⟨config.init, [[]], [], [[]], [4294967295], [0], 0, [], [], []⟩ :
      aig_cuts).m_max_cutset_size.length ∧
    (inc_max_cutset_size (⟨config.init, [[]], [], [[]], [4294967295], [0], 0,
        [], [], []⟩ : aig_cuts) 0).m_max_cutset_size.getD 0 0 ≠
      (⟨config.init, [[]], [], [[]], [4294967295], [0], 0, [], [], []⟩ :
        aig_cuts).m_max_cutset_size.getD 0 0 + 10 :=
  ⟨by decide, by decide⟩

end aig_cuts

end sat

namespace sat

namespace aig_cuts

theorem le_foldl_max {α : Type} (f : α → Nat) :
    ∀ (l : List α) (a : Nat), a ≤ l.foldl (fun acc d => max acc (f d)) a
  | [], _ => le_refl _
  | x :: xs, a => le_trans (le_max_left a (f x)) (le_foldl_max f xs (max a (f x)))

theorem mem_le_foldl_max {α : Type} (f : α → Nat) (l : List α) :
    ∀ (a : Nat), ∀ x ∈ l, f x ≤ l.foldl (fun acc d => max acc (f d)) a := by
  induction l with
  | nil => intro a x hx; cases hx
  | cons y ys ih =>
    intro a x hx
    rcases List.mem_cons.mp hx with rfl | hx
    · exact le_trans (le_max_right a (f x)) (le_foldl_max f ys (max a (f x)))
    · exact ih (max a (f y)) x hx

theorem foldl_max_attained {α : Type} (f : α → Nat) (l : List α) :
    ∀ a : Nat, l.foldl (fun acc d => max acc (f d)) a = a ∨
      ∃ x ∈ l, l.foldl (fun acc d => max acc (f d)) a = f x := by
  induction l with
  | nil => intro a; exact Or.inl rfl
  | cons y ys ih =>
    intro a
    rw [List.foldl_cons]
    rcases ih (max a (f y)) with h | ⟨x, hx, hfx⟩
    · rcases Nat.le_total (f y) a with hya | hay
      · left; rw [h]; omega
      · right; exact ⟨y, List.mem_cons_self y ys, by rw [h]; omega⟩
    · exact Or.inr ⟨x, List.mem_cons_of_mem y hx, hfx⟩

theorem evict_worst_def_length (w : Nat) :
    ∀ l : List node, (∃ d ∈ l, d.m_size = w) → (evict_worst_def w l).length + 1 = l.length := by
  intro l
  induction l with
  | nil => rintro ⟨d, hd, -⟩; cases hd
  | cons y ys ih =>
    rintro ⟨d, hd, hdw⟩
    rw [evict_worst_def]
    by_cases hy : y.m_size = w
    · rw [if_pos hy]; rfl
    · rw [if_neg hy, List.length_cons, List.length_cons]
      rcases List.mem_cons.mp hd with rfl | hd'
      · exact absurd hdw hy
      · rw [← ih ⟨d, hd', hdw⟩]

/-- C5: add_node on a variable already holding the configured maximum number
of alternative definitions silently ignores the new definition unless it
has strictly fewer children than the worst existing alternative, in which
case the worst (an alternative of maximal child count) is evicted to make
room; and whenever the definition is stored, the target variable head.var()
is touched. -/
theorem C5_add_node_policy (st : aig_cuts) (head : literal) (op : bool_op)
    (args : List literal) (defs : List node) (n : node)
    (hdefs : defs = (reserve st (head.var + 1)).m_aig.getD head.var [])
    (hn : n = node.mk_node head.sign op args.length (reserve st (head.var + 1)).m_literals.length) :
    (st.m_config.m_max_aux ≤ defs.length → ¬ n.m_size < worst_def_size defs →
      add_node st head op args = reserve st (head.var + 1)) ∧
    (st.m_config.m_max_aux ≤ defs.length → n.m_size < worst_def_size defs →
      (add_node st head op args).m_aig.getD head.var [] =
        evict_worst_def (worst_def_size defs) defs ++ [n] ∧
      ∃ w ∈ defs, w.m_size = worst_def_size defs ∧ (∀ d ∈ defs, d.m_size ≤ w.m_size) ∧
        (evict_worst_def (worst_def_size defs) defs).length + 1 = defs.length) ∧
    (∀ out, insert_aux st.m_config n defs = some out →
      (add_node st head op args).m_last_touched.getD head.var 0 =
        u32 (head.var + st.m_num_cut_calls * (add_node st head op args).m_aig.length)) := by
  subst hdefs hn
  have hcfg : (reserve st (head.var + 1)).m_config = st.m_config := rfl
  have hvaig : head.var < (reserve st (head.var + 1)).m_aig.length := by
    show head.var < (padTo st.m_aig (head.var + 1) (fun _ => [])).length
    rw [length_padTo]; omega
  have hvtouch : head.var < (reserve st (head.var + 1)).m_last_touched.length := by
    show head.var < (padTo st.m_last_touched (head.var + 1) (fun _ => 0)).length
    rw [length_padTo]; omega
  refine ⟨?_, ?_, ?_⟩
  · intro hcap hworse
    rw [add_node, insert_aux, if_neg (by rw [hcfg]; omega), if_neg hworse]
  · intro hcap hbetter
    have hins : insert_aux (reserve st (head.var + 1)).m_config
        (node.mk_node head.sign op args.length (reserve st (head.var + 1)).m_literals.length)
        ((reserve st (head.var + 1)).m_aig.getD head.var []) =
        some (evict_worst_def
          (worst_def_size ((reserve st (head.var + 1)).m_aig.getD head.var []))
          ((reserve st (head.var + 1)).m_aig.getD head.var []) ++
          [node.mk_node head.sign op args.length (reserve st (head.var + 1)).m_literals.length]) := by
      rw [insert_aux, if_neg (by rw [hcfg]; omega), if_pos hbetter]
    have hex : ∃ d ∈ (reserve st (head.var + 1)).m_aig.getD head.var [],
        d.m_size = worst_def_size ((reserve st (head.var + 1)).m_aig.getD head.var []) := by
      rcases foldl_max_attained (fun d : node => d.m_size)
          ((reserve st (head.var + 1)).m_aig.getD head.var []) 0 with h0 | ⟨x, hx1, hx2⟩
      · rw [worst_def_size] at hbetter; omega
      · exact ⟨x, hx1, hx2.symm⟩
    constructor
    · rw [add_node, hins]
      show ((reserve st (head.var + 1)).m_aig.set head.var _).getD head.var [] = _
      rw [getD_set_self _ _ hvaig]
    · rcases hex with ⟨w, hw, hwsz⟩
      exact ⟨w, hw, hwsz, fun d hd => by
        rw [hwsz]; exact mem_le_foldl_max _ _ 0 d hd,
        evict_worst_def_length _ _ ⟨w, hw, hwsz⟩⟩
  · intro out hout
    have hout2 : insert_aux (reserve st (head.var + 1)).m_config
        (node.mk_node head.sign op args.length (reserve st (head.var + 1)).m_literals.length)
        ((reserve st (head.var + 1)).m_aig.getD head.var []) = some out := by
      rw [hcfg]; exact hout
    rw [add_node, hout2]
    show ((reserve st (head.var + 1)).m_last_touched.set head.var
        (u32 (head.var + (reserve st (head.var + 1)).m_num_cut_calls *
          ((reserve st (head.var + 1)).m_aig.set head.var out).length))).getD head.var 0 =
      u32 (head.var + (reserve st (head.var + 1)).m_num_cut_calls *
        ((reserve st (head.var + 1)).m_aig.set head.var out).length)
    rw [getD_set_self _ _ hvtouch]

theorem C5_witness :
    ((run []).m_config.m_max_aux ≤
        ((reserve (run []) (0 + 1)).m_aig.getD 0 []).length →
      ¬ (node.mk_node false bool_op.and_op ([] : List literal).length
          (reserve (run []) (0 + 1)).m_literals.length).m_size <
          worst_def_size ((reserve (run []) (0 + 1)).m_aig.getD 0 []) →
      add_node (run []) ⟨0, false⟩ bool_op.and_op [] = reserve (run []) (0 + 1)) ∧
    ((run []).m_config.m_max_aux ≤
        ((reserve (run []) (0 + 1)).m_aig.getD 0 []).length →
      (node.mk_node false bool_op.and_op ([] : List literal).length
          (reserve (run []) (0 + 1)).m_literals.length).m_size <
          worst_def_size ((reserve (run []) (0 + 1)).m_aig.getD 0 []) →
      (add_node (run []) ⟨0, false⟩ bool_op.and_op []).m_aig.getD 0 [] =
        evict_worst_def (worst_def_size ((reserve (run []) (0 + 1)).m_aig.getD 0 []))
          ((reserve (run []) (0 + 1)).m_aig.getD 0 []) ++
          [node.mk_node false bool_op.and_op ([] : List literal).length
            (reserve (run []) (0 + 1)).m_literals.length] ∧
      ∃ w ∈ (reserve (run []) (0 + 1)).m_aig.getD 0 [],
        w.m_size = worst_def_size ((reserve (run []) (0 + 1)).m_aig.getD 0 []) ∧
        (∀ d ∈ (reserve (run []) (0 + 1)).m_aig.getD 0 [], d.m_size ≤ w.m_size) ∧
        (evict_worst_def (worst_def_size ((reserve (run []) (0 + 1)).m_aig.getD 0 []))
          ((reserve (run []) (0 + 1)).m_aig.getD 0 [])).length + 1 =
          ((reserve (run []) (0 + 1)).m_aig.getD 0 []).length) ∧
    (∀ out, insert_aux (run []).m_config
        (node.mk_node false bool_op.and_op ([] : List literal).length
          (reserve (run []) (0 + 1)).m_literals.length)
        ((reserve (run []) (0 + 1)).m_aig.getD 0 []) = some out →
      (add_node (run []) ⟨0, false⟩ bool_op.and_op []).m_last_touched.getD 0 0 =
        u32 (0 + (run []).m_num_cut_calls *
          (add_node (run []) ⟨0, false⟩ bool_op.and_op []).m_aig.length)) :=
  C5_add_node_policy (run []) ⟨0, false⟩ bool_op.and_op [] _ _ rfl rfl

end aig_cuts

end sat

namespace sat

theorem idxOf_lt (S : List Nat) (σ : Nat → Bool) : idxOf S σ < 2 ^ S.length := by
  induction S with
  | nil => simp [idxOf]
  | cons v S ih =>
    rw [idxOf, List.length_cons, pow_succ]
    cases h : σ v <;> simp only [cond] <;> omega

theorem natOfBits_testBit (L : List Bool) : ∀ j, (natOfBits L).testBit j = L.getD j false := by
  induction L with
  | nil => intro j; simp [natOfBits, Nat.zero_testBit]
  | cons b bs ih =>
    intro j
    have hmod : ((cond b 1 0) + 2 * natOfBits bs) % 2 = cond b 1 0 := by
      cases b <;> simp [Nat.add_mul_mod_self_left]
    cases j with
    | zero =>
      rw [natOfBits, Nat.testBit_zero, hmod]
      cases b <;> rfl
    | succ j =>
      rw [natOfBits, Nat.testBit_succ]
      have hdiv : ((cond b 1 0) + 2 * natOfBits bs) / 2 = natOfBits bs := by
        cases b <;> simp only [cond] <;> omega
      rw [hdiv, ih]
      rfl

theorem tableOf_testBit (S : List Nat) (f : (Nat → Bool) → Bool) (i : Nat)
    (h : i < 2 ^ S.length) : (tableOf S f).testBit i = f (rowAssign S i) := by
  rw [tableOf, natOfBits_testBit]
  rw [List.getD_eq_getElem?_getD, List.getElem?_map, List.getElem?_range h]
  rfl

theorem rowAssign_agree (σ : Nat → Bool) :
    ∀ (S : List Nat), ∀ u ∈ S, rowAssign S (idxOf S σ) u = σ u := by
  intro S
  induction S with
  | nil => intro u hu; cases hu
  | cons v S ih =>
    intro u hu
    rw [rowAssign, idxOf]
    have hlt := idxOf_lt S σ
    by_cases huv : u = v
    · rw [if_pos huv]
      subst huv
      cases h : σ u
      · simp only [cond_false, Nat.zero_add, Nat.div_eq_of_lt hlt]
        rfl
      · simp only [cond_true]
        have h2 : (2 ^ S.length + idxOf S σ) / 2 ^ S.length = 1 := by
          rw [Nat.add_comm, Nat.add_div_right _ (Nat.pos_pow_of_pos _ (by omega)),
            Nat.div_eq_of_lt hlt]
        simp only [h2]
        rfl
    · rw [if_neg huv]
      have hmod : ((cond (σ v) (2 ^ S.length) 0) + idxOf S σ) % 2 ^ S.length = idxOf S σ := by
        cases σ v <;>
          simp only [cond_true, cond_false, Nat.zero_add, Nat.add_mod_left] <;>
          exact Nat.mod_eq_of_lt hlt
      rw [hmod]
      exact ih u ((List.mem_cons.mp hu).resolve_left huv)

theorem idxOf_congr {S : List Nat} {σ τ : Nat → Bool} (h : ∀ u ∈ S, σ u = τ u) :
    idxOf S σ = idxOf S τ := by
  induction S with
  | nil => rfl
  | cons v S ih =>
    rw [idxOf, idxOf, h v (List.mem_cons_self v S),
      ih (fun u hu => h u (List.mem_cons_of_mem _ hu))]

theorem cut_eval_congr {c : cut} {σ τ : Nat → Bool} (h : ∀ u ∈ c.support, σ u = τ u) :
    cut_eval c σ = cut_eval c τ := by
  rw [cut_eval, cut_eval, idxOf_congr h]

theorem cut_eval_mk_cut (S : List Nat) (f : (Nat → Bool) → Bool) (σ : Nat → Bool)
    (hf : ∀ σ' τ' : Nat → Bool, (∀ u ∈ S, σ' u = τ' u) → f σ' = f τ') :
    cut_eval (mk_cut S f) σ = f σ := by
  rw [cut_eval]
  show (tableOf S f).testBit (idxOf S σ) = f σ
  rw [tableOf_testBit S f _ (idxOf_lt S σ)]
  exact hf _ _ (fun u hu => rowAssign_agree σ S u hu)

theorem trivial_cut_eval (v : Nat) (σ : Nat → Bool) : cut_eval (trivial_cut v) σ = σ v := by
  rw [cut_eval, trivial_cut]
  show (2 : Nat).testBit (idxOf [v] σ) = σ v
  cases h : σ v
  · simp [idxOf, h]
  · simp only [idxOf, h, cond_true, List.length_nil, pow_zero, Nat.add_zero]
    decide

theorem mem_insSorted (u : Nat) :
    ∀ (l : List Nat) (x : Nat), x ∈ insSorted u l ↔ x = u ∨ x ∈ l := by
  intro l
  induction l with
  | nil => intro x; simp [insSorted]
  | cons y ys ih =>
    intro x
    rw [insSorted]
    by_cases h1 : u < y
    · rw [if_pos h1]
      simp only [List.mem_cons]
    · rw [if_neg h1]
      by_cases h2 : y < u
      · rw [if_pos h2]
        simp only [List.mem_cons, ih]
        tauto
      · rw [if_neg h2]
        have huy : u = y := by omega
        subst huy
        simp only [List.mem_cons]
        tauto

theorem pairwise_insSorted (u : Nat) :
    ∀ (l : List Nat), l.Pairwise (· < ·) → (insSorted u l).Pairwise (· < ·) := by
  intro l
  induction l with
  | nil => intro _; simp [insSorted]
  | cons y ys ih =>
    intro hp
    rw [List.pairwise_cons] at hp
    obtain ⟨hy, hys⟩ := hp
    rw [insSorted]
    by_cases h1 : u < y
    · rw [if_pos h1, List.pairwise_cons]
      refine ⟨?_, List.pairwise_cons.mpr ⟨hy, hys⟩⟩
      intro b hb
      rcases List.mem_cons.mp hb with rfl | hb'
      · exact h1
      · exact lt_trans h1 (hy b hb')
    · rw [if_neg h1]
      by_cases h2 : y < u
      · rw [if_pos h2, List.pairwise_cons]
        refine ⟨?_, ih hys⟩
        intro b hb
        rcases (mem_insSorted u ys b).mp hb with rfl | hb'
        · exact h2
        · exact hy b hb'
      · rw [if_neg h2]
        exact List.pairwise_cons.mpr ⟨hy, hys⟩

theorem mem_mergeS : ∀ (ys xs : List Nat) (x : Nat), x ∈ mergeS xs ys ↔ x ∈ xs ∨ x ∈ ys := by
  intro ys
  induction ys with
  | nil => intro xs x; simp [mergeS]
  | cons y ys ih =>
    intro xs x
    show x ∈ mergeS (insSorted y xs) ys ↔ _
    rw [ih, mem_insSorted]
    simp only [List.mem_cons]
    tauto

theorem pairwise_mergeS :
    ∀ (ys xs : List Nat), xs.Pairwise (· < ·) → (mergeS xs ys).Pairwise (· < ·) := by
  intro ys
  induction ys with
  | nil => intro xs h; exact h
  | cons y ys ih =>
    intro xs h
    show (mergeS (insSorted y xs) ys).Pairwise (· < ·)
    exact ih _ (pairwise_insSorted y xs h)

end sat

namespace sat

theorem childs_size0 (lits : List literal) (n : node) (h : n.m_size = 0) :
    childs lits n = [] := by
  rw [childs, h]; rfl

theorem childs_size1 (lits : List literal) (n : node) (h : n.m_size = 1) :
    childs lits n = [child lits n 0] := by
  rw [childs, h]; rfl

theorem childs_size2 (lits : List literal) (n : node) (h : n.m_size = 2) :
    childs lits n = [child lits n 0, child lits n 1] := by
  rw [childs, h]; rfl

theorem childs_size3 (lits : List literal) (n : node) (h : n.m_size = 3) :
    childs lits n = [child lits n 0, child lits n 1, child lits n 2] := by
  rw [childs, h]; rfl

theorem length_childs (lits : List literal) (n : node) : (childs lits n).length = n.m_size := by
  rw [childs, List.length_map, List.length_range]

theorem combine2_spec (op : bool_op) (sgn : Bool) (l1 l2 : literal) (c1 c2 c : cut)
    (h : combine2 op sgn l1 l2 c1 c2 = some c) :
    (∀ σ, cut_eval c σ = xor sgn (op2 op (lit_cut_eval l1 c1 σ) (lit_cut_eval l2 c2 σ))) ∧
    c.support = mergeS c1.support c2.support ∧
    c.support.length ≤ max_cut_width := by
  rw [combine2] at h
  split at h
  case isFalse => cases h
  case isTrue hw =>
    have hc := (Option.some.inj h).symm
    subst hc
    refine ⟨?_, rfl, hw⟩
    intro σ
    exact cut_eval_mk_cut _ _ σ (by
      intro σ' τ' hagree
      have e1 : cut_eval c1 σ' = cut_eval c1 τ' :=
        cut_eval_congr (fun u hu => hagree u ((mem_mergeS _ _ u).mpr (Or.inl hu)))
      have e2 : cut_eval c2 σ' = cut_eval c2 τ' :=
        cut_eval_congr (fun u hu => hagree u ((mem_mergeS _ _ u).mpr (Or.inr hu)))
      rw [lit_cut_eval, lit_cut_eval, lit_cut_eval, lit_cut_eval, e1, e2])

theorem combine3_spec (sgn : Bool) (l1 l2 l3 : literal) (c1 c2 c3 c : cut)
    (h : combine3 sgn l1 l2 l3 c1 c2 c3 = some c) :
    (∀ σ, cut_eval c σ =
      xor sgn (cond (lit_cut_eval l1 c1 σ) (lit_cut_eval l2 c2 σ) (lit_cut_eval l3 c3 σ))) ∧
    c.support = mergeS (mergeS c1.support c2.support) c3.support ∧
    c.support.length ≤ max_cut_width := by
  rw [combine3] at h
  split at h
  case isFalse => cases h
  case isTrue hw =>
    have hc := (Option.some.inj h).symm
    subst hc
    refine ⟨?_, rfl, hw⟩
    intro σ
    exact cut_eval_mk_cut _ _ σ (by
      intro σ' τ' hagree
      have e1 : cut_eval c1 σ' = cut_eval c1 τ' :=
        cut_eval_congr (fun u hu => hagree u ((mem_mergeS _ _ u).mpr
          (Or.inl ((mem_mergeS _ _ u).mpr (Or.inl hu)))))
      have e2 : cut_eval c2 σ' = cut_eval c2 τ' :=
        cut_eval_congr (fun u hu => hagree u ((mem_mergeS _ _ u).mpr
          (Or.inl ((mem_mergeS _ _ u).mpr (Or.inr hu)))))
      have e3 : cut_eval c3 σ' = cut_eval c3 τ' :=
        cut_eval_congr (fun u hu => hagree u ((mem_mergeS _ _ u).mpr (Or.inr hu)))
      rw [lit_cut_eval, lit_cut_eval, lit_cut_eval, lit_cut_eval, lit_cut_eval, lit_cut_eval,
        e1, e2, e3])

theorem combineP_spec (op : bool_op) (l : literal) (p c0 q : cut)
    (h : combineP op l p c0 = some q) :
    (∀ σ, cut_eval q σ = op2 op (cut_eval p σ) (lit_cut_eval l c0 σ)) ∧
    q.support = mergeS p.support c0.support ∧
    q.support.length ≤ max_cut_width := by
  rw [combineP] at h
  split at h
  case isFalse => cases h
  case isTrue hw =>
    have hc := (Option.some.inj h).symm
    subst hc
    refine ⟨?_, rfl, hw⟩
    intro σ
    exact cut_eval_mk_cut _ _ σ (by
      intro σ' τ' hagree
      have e1 : cut_eval p σ' = cut_eval p τ' :=
        cut_eval_congr (fun u hu => hagree u ((mem_mergeS _ _ u).mpr (Or.inl hu)))
      have e2 : cut_eval c0 σ' = cut_eval c0 τ' :=
        cut_eval_congr (fun u hu => hagree u ((mem_mergeS _ _ u).mpr (Or.inr hu)))
      rw [lit_cut_eval, lit_cut_eval, e1, e2])

theorem lift1_eval (sgn : Bool) (l : literal) (c0 : cut) (σ : Nat → Bool) :
    cut_eval (lift1 sgn l c0) σ = xor sgn (lit_cut_eval l c0 σ) := by
  rw [lift1]
  exact cut_eval_mk_cut _ _ σ (by
    intro σ' τ' hagree
    rw [lit_cut_eval, lit_cut_eval, cut_eval_congr hagree])

theorem foldl_and_eq_all (f : literal → Bool) :
    ∀ (ls : List literal) (b : Bool), ls.foldl (fun acc l => acc && f l) b = (b && ls.all f) := by
  intro ls
  induction ls with
  | nil => intro b; cases b <;> rfl
  | cons x xs ih =>
    intro b
    rw [List.foldl_cons, ih, List.all_cons]
    cases b <;> cases f x <;> simp

theorem foldl_xor_eq_foldr (f : literal → Bool) :
    ∀ (ls : List literal) (b : Bool),
      ls.foldl (fun acc l => xor acc (f l)) b =
        xor b (ls.foldr (fun l acc => xor (f l) acc) false) := by
  intro ls
  induction ls with
  | nil => intro b; cases b <;> rfl
  | cons x xs ih =>
    intro b
    rw [List.foldl_cons, List.foldr_cons, ih, Bool.xor_assoc]

theorem nstep_fold_sound (op : bool_op) (cutsOf : Nat → List cut)
    (C : (Nat → Bool) → Prop)
    (hsound : ∀ u, ∀ c0 ∈ cutsOf u, ∀ σ, C σ → cut_eval c0 σ = σ u) :
    ∀ (ls : List literal) (acc : List cut) (g : (Nat → Bool) → Bool),
      (∀ p ∈ acc, ∀ σ, C σ → cut_eval p σ = g σ) →
      ∀ p ∈ ls.foldl (nstep op cutsOf) acc, ∀ σ, C σ →
        cut_eval p σ = ls.foldl (fun b l => op2 op b (lit_eval σ l)) (g σ) := by
  intro ls
  induction ls with
  | nil => intro acc g hacc p hp σ hσ; exact hacc p hp σ hσ
  | cons l ls ih =>
    intro acc g hacc p hp σ hσ
    rw [List.foldl_cons] at hp
    rw [List.foldl_cons]
    refine ih (nstep op cutsOf acc l) (fun σ0 => op2 op (g σ0) (lit_eval σ0 l)) ?_ p hp σ hσ
    intro q hq σ' hσ'
    rw [nstep, List.mem_flatMap] at hq
    obtain ⟨p0, hp0, hq2⟩ := hq
    rw [List.mem_filterMap] at hq2
    obtain ⟨c0, hc0, hq3⟩ := hq2
    rw [(combineP_spec op l p0 c0 q hq3).1 σ', hacc p0 hp0 σ' hσ',
      lit_cut_eval, hsound l.var c0 hc0 σ' hσ']
    rfl

theorem nstep_fold_wf (op : bool_op) (cutsOf : Nat → List cut) :
    ∀ (ls : List literal) (acc : List cut),
      (∀ p ∈ acc, aig_cuts.cut_wf p) →
      ∀ p ∈ ls.foldl (nstep op cutsOf) acc, aig_cuts.cut_wf p := by
  intro ls
  induction ls with
  | nil => intro acc h p hp; exact h p hp
  | cons l ls ih =>
    intro acc h p hp
    rw [List.foldl_cons] at hp
    refine ih _ ?_ p hp
    intro q hq
    rw [nstep, List.mem_flatMap] at hq
    obtain ⟨p0, hp0, hq2⟩ := hq
    rw [List.mem_filterMap] at hq2
    obtain ⟨c0, hc0, hq3⟩ := hq2
    obtain ⟨-, hsupp, hwid⟩ := combineP_spec _ _ _ _ _ hq3
    exact ⟨by rw [hsupp]; exact pairwise_mergeS _ _ (h p0 hp0).1, hwid⟩


theorem candidates_sound (lits : List literal) (cutsOf : Nat → List cut) (v : Nat) (n : node)
    (C : (Nat → Bool) → Prop)
    (hsound : ∀ u, ∀ c0 ∈ cutsOf u, ∀ σ, C σ → cut_eval c0 σ = σ u)
    (hnode : ∀ σ, C σ → σ v = eval_node lits n σ) :
    ∀ c ∈ candidates lits cutsOf v n, ∀ σ, C σ → cut_eval c σ = σ v := by
  intro c hc σ hσ
  rw [hnode σ hσ]
  unfold candidates at hc
  split at hc
  case isFalse => exact absurd hc (List.not_mem_nil c)
  case isTrue hgate =>
  split at hc
  case h_1 _ _ heq1 heq2 =>
    have hc2 := List.mem_singleton.mp hc
    subst hc2
    have he : eval_node lits n σ = xor n.m_sign true := by
      simp only [eval_node, heq1, childs_size0 lits n heq2, List.all_nil]
    rw [he]
    exact cut_eval_mk_cut _ _ σ (fun σ' τ' _ => rfl)
  case h_2 _ _ heq1 heq2 =>
    rw [List.mem_map] at hc
    obtain ⟨c0, hc0, rfl⟩ := hc
    rw [lift1_eval, lit_cut_eval, hsound _ c0 hc0 σ hσ]
    simp only [eval_node, heq1, childs_size1 lits n heq2, List.all_cons, List.all_nil,
      Bool.and_true]
    rfl
  case h_3 _ _ heq1 heq2 =>
    rw [List.mem_map] at hc
    obtain ⟨c0, hc0, rfl⟩ := hc
    rw [lift1_eval, lit_cut_eval, hsound _ c0 hc0 σ hσ]
    simp only [eval_node, heq1, childs_size1 lits n heq2, List.foldr_cons, List.foldr_nil,
      Bool.xor_false]
    rfl
  case h_4 _ _ heq1 heq2 =>
    rw [List.mem_flatMap] at hc
    obtain ⟨c1, hc1, hc2⟩ := hc
    rw [List.mem_filterMap] at hc2
    obtain ⟨c2, hc2m, hcomb⟩ := hc2
    obtain ⟨heval, -, -⟩ := combine2_spec _ _ _ _ c1 c2 c hcomb
    rw [heval σ, lit_cut_eval, lit_cut_eval, hsound _ c1 hc1 σ hσ, hsound _ c2 hc2m σ hσ]
    simp only [eval_node, heq1, childs_size2 lits n heq2, List.all_cons, List.all_nil,
      Bool.and_true]
    rfl
  case h_5 _ _ heq1 heq2 =>
    rw [List.mem_flatMap] at hc
    obtain ⟨c1, hc1, hc2⟩ := hc
    rw [List.mem_filterMap] at hc2
    obtain ⟨c2, hc2m, hcomb⟩ := hc2
    obtain ⟨heval, -, -⟩ := combine2_spec _ _ _ _ c1 c2 c hcomb
    rw [heval σ, lit_cut_eval, lit_cut_eval, hsound _ c1 hc1 σ hσ, hsound _ c2 hc2m σ hσ]
    simp only [eval_node, heq1, childs_size2 lits n heq2, List.foldr_cons, List.foldr_nil,
      Bool.xor_false]
    rfl
  case h_6 _ _ heq1 heq2 =>
    rw [List.mem_flatMap] at hc
    obtain ⟨c1, hc1, hc2⟩ := hc
    rw [List.mem_flatMap] at hc2
    obtain ⟨c2, hc2m, hc3⟩ := hc2
    rw [List.mem_filterMap] at hc3
    obtain ⟨c3, hc3m, hcomb⟩ := hc3
    obtain ⟨heval, -, -⟩ := combine3_spec _ _ _ _ c1 c2 c3 c hcomb
    rw [heval σ, lit_cut_eval, lit_cut_eval, lit_cut_eval, hsound _ c1 hc1 σ hσ,
      hsound _ c2 hc2m σ hσ, hsound _ c3 hc3m σ hσ]
    simp only [eval_node, heq1, heq2]
    rfl
  case h_7 _ _ heq1 heq2 =>
    cases hch : childs lits n with
    | nil =>
      have hlen := length_childs lits n
      rw [hch, heq2] at hlen
      simp at hlen
    | cons l0 rest =>
      rw [hch] at hc
      simp only [nary_cands] at hc
      rw [List.mem_map] at hc
      obtain ⟨p, hp, rfl⟩ := hc
      have hbase : ∀ q ∈ (cutsOf l0.var).map (lift1 false l0), ∀ σ', C σ' →
          cut_eval q σ' = lit_eval σ' l0 := by
        intro q hq σ' hσ'
        rw [List.mem_map] at hq
        obtain ⟨c0, hc0, rfl⟩ := hq
        rw [lift1_eval, Bool.false_xor, lit_cut_eval, hsound _ c0 hc0 σ' hσ']
        rfl
      have hfold := nstep_fold_sound bool_op.and_op cutsOf C hsound rest _ _ hbase p hp σ hσ
      have h2 : cut_eval (mk_cut p.support (fun σ0 => xor n.m_sign (cut_eval p σ0))) σ =
          xor n.m_sign (cut_eval p σ) :=
        cut_eval_mk_cut _ _ σ (fun σ' τ' hagree => by rw [cut_eval_congr hagree])
      rw [h2, hfold]
      have h3 : rest.foldl (fun b l => op2 bool_op.and_op b (lit_eval σ l)) (lit_eval σ l0) =
          (lit_eval σ l0 && rest.all (lit_eval σ)) :=
        foldl_and_eq_all (lit_eval σ) rest (lit_eval σ l0)
      rw [h3]
      have he : eval_node lits n σ =
          xor n.m_sign (lit_eval σ l0 && rest.all (lit_eval σ)) := by
        simp only [eval_node, heq1, hch, List.all_cons]
      rw [he]
  case h_8 _ _ heq1 heq2 =>
    cases hch : childs lits n with
    | nil =>
      have hlen := length_childs lits n
      rw [hch, heq2] at hlen
      simp at hlen
    | cons l0 rest =>
      rw [hch] at hc
      simp only [nary_cands] at hc
      rw [List.mem_map] at hc
      obtain ⟨p, hp, rfl⟩ := hc
      have hbase : ∀ q ∈ (cutsOf l0.var).map (lift1 false l0), ∀ σ', C σ' →
          cut_eval q σ' = lit_eval σ' l0 := by
        intro q hq σ' hσ'
        rw [List.mem_map] at hq
        obtain ⟨c0, hc0, rfl⟩ := hq
        rw [lift1_eval, Bool.false_xor, lit_cut_eval, hsound _ c0 hc0 σ' hσ']
        rfl
      have hfold := nstep_fold_sound bool_op.xor_op cutsOf C hsound rest _ _ hbase p hp σ hσ
      have h2 : cut_eval (mk_cut p.support (fun σ0 => xor n.m_sign (cut_eval p σ0))) σ =
          xor n.m_sign (cut_eval p σ) :=
        cut_eval_mk_cut _ _ σ (fun σ' τ' hagree => by rw [cut_eval_congr hagree])
      rw [h2, hfold]
      have h3 : rest.foldl (fun b l => op2 bool_op.xor_op b (lit_eval σ l)) (lit_eval σ l0) =
          xor (lit_eval σ l0) (rest.foldr (fun l acc => xor (lit_eval σ l) acc) false) :=
        foldl_xor_eq_foldr (lit_eval σ) rest (lit_eval σ l0)
      rw [h3]
      have he : eval_node lits n σ =
          xor n.m_sign ((l0 :: rest).foldr (fun l b => xor (lit_eval σ l) b) false) := by
        simp only [eval_node, heq1, hch]
      rw [he, List.foldr_cons]
  case h_9 => exact absurd hc (List.not_mem_nil c)

end sat

namespace sat

theorem candidates_wf (lits : List literal) (cutsOf : Nat → List cut) (v : Nat) (n : node)
    (hwf : ∀ u, ∀ c0 ∈ cutsOf u, aig_cuts.cut_wf c0) :
    ∀ c ∈ candidates lits cutsOf v n, aig_cuts.cut_wf c := by
  intro c hc
  unfold candidates at hc
  split at hc
  case isFalse => exact absurd hc (List.not_mem_nil c)
  case isTrue hgate =>
  split at hc
  case h_1 _ _ heq1 heq2 =>
    have hc2 := List.mem_singleton.mp hc
    subst hc2
    exact ⟨List.Pairwise.nil, by simp [mk_cut, max_cut_width]⟩
  case h_2 _ _ heq1 heq2 =>
    rw [List.mem_map] at hc
    obtain ⟨c0, hc0, rfl⟩ := hc
    exact hwf _ c0 hc0
  case h_3 _ _ heq1 heq2 =>
    rw [List.mem_map] at hc
    obtain ⟨c0, hc0, rfl⟩ := hc
    exact hwf _ c0 hc0
  case h_4 _ _ heq1 heq2 =>
    rw [List.mem_flatMap] at hc
    obtain ⟨c1, hc1, hc2⟩ := hc
    rw [List.mem_filterMap] at hc2
    obtain ⟨c2, hc2m, hcomb⟩ := hc2
    obtain ⟨-, hsupp, hwid⟩ := combine2_spec _ _ _ _ c1 c2 c hcomb
    exact ⟨by rw [hsupp]; exact pairwise_mergeS _ _ (hwf _ c1 hc1).1, hwid⟩
  case h_5 _ _ heq1 heq2 =>
    rw [List.mem_flatMap] at hc
    obtain ⟨c1, hc1, hc2⟩ := hc
    rw [List.mem_filterMap] at hc2
    obtain ⟨c2, hc2m, hcomb⟩ := hc2
    obtain ⟨-, hsupp, hwid⟩ := combine2_spec _ _ _ _ c1 c2 c hcomb
    exact ⟨by rw [hsupp]; exact pairwise_mergeS _ _ (hwf _ c1 hc1).1, hwid⟩
  case h_6 _ _ heq1 heq2 =>
    rw [List.mem_flatMap] at hc
    obtain ⟨c1, hc1, hc2⟩ := hc
    rw [List.mem_flatMap] at hc2
    obtain ⟨c2, hc2m, hc3⟩ := hc2
    rw [List.mem_filterMap] at hc3
    obtain ⟨c3, hc3m, hcomb⟩ := hc3
    obtain ⟨-, hsupp, hwid⟩ := combine3_spec _ _ _ _ c1 c2 c3 c hcomb
    exact ⟨by
      rw [hsupp]
      exact pairwise_mergeS _ _ (pairwise_mergeS _ _ (hwf _ c1 hc1).1), hwid⟩
  case h_7 _ _ heq1 heq2 =>
    cases hch : childs lits n with
    | nil =>
      have hlen := length_childs lits n
      rw [hch, heq2] at hlen
      simp at hlen
    | cons l0 rest =>
      rw [hch] at hc
      simp only [nary_cands] at hc
      rw [List.mem_map] at hc
      obtain ⟨p, hp, rfl⟩ := hc
      have hbase : ∀ q ∈ (cutsOf l0.var).map (lift1 false l0), aig_cuts.cut_wf q := by
        intro q hq
        rw [List.mem_map] at hq
        obtain ⟨c0, hc0, rfl⟩ := hq
        exact hwf _ c0 hc0
      exact nstep_fold_wf bool_op.and_op cutsOf rest _ hbase p hp
  case h_8 _ _ heq1 heq2 =>
    cases hch : childs lits n with
    | nil =>
      have hlen := length_childs lits n
      rw [hch, heq2] at hlen
      simp at hlen
    | cons l0 rest =>
      rw [hch] at hc
      simp only [nary_cands] at hc
      rw [List.mem_map] at hc
      obtain ⟨p, hp, rfl⟩ := hc
      have hbase : ∀ q ∈ (cutsOf l0.var).map (lift1 false l0), aig_cuts.cut_wf q := by
        intro q hq
        rw [List.mem_map] at hq
        obtain ⟨c0, hc0, rfl⟩ := hq
        exact hwf _ c0 hc0
      exact nstep_fold_wf bool_op.xor_op cutsOf rest _ hbase p hp
  case h_9 => exact absurd hc (List.not_mem_nil c)

end sat

namespace sat

theorem foldl_max_le {α : Type} (f : α → Nat) :
    ∀ (l : List α) (a k : Nat), a ≤ k → (∀ x ∈ l, f x ≤ k) →
      l.foldl (fun acc d => max acc (f d)) a ≤ k := by
  intro l
  induction l with
  | nil => intro a k h0 _; exact h0
  | cons y ys ih =>
    intro a k h0 h
    rw [List.foldl_cons]
    refine ih _ k ?_ (fun x hx => h x (List.mem_cons_of_mem _ hx))
    have := h y (List.mem_cons_self y ys)
    omega

namespace aig_cuts

theorem evict_worst_subset (v w : Nat) : ∀ cs : List cut, evict_worst v w cs ⊆ cs := by
  intro cs
  induction cs with
  | nil => intro x hx; cases hx
  | cons d t ih =>
    rw [evict_worst]
    split
    · intro x hx; exact List.mem_cons_of_mem d hx
    · intro x hx
      rcases List.mem_cons.mp hx with rfl | hx'
      · exact List.mem_cons_self _ _
      · exact List.mem_cons_of_mem d (ih hx')

theorem trivial_mem_evict_worst (v w : Nat) :
    ∀ cs : List cut, trivial_cut v ∈ cs → trivial_cut v ∈ evict_worst v w cs := by
  intro cs
  induction cs with
  | nil => intro h; cases h
  | cons d t ih =>
    intro h
    rw [evict_worst]
    split
    case isTrue hcond =>
      rcases List.mem_cons.mp h with heq | ht
      · exfalso
        rw [Bool.and_eq_true] at hcond
        have h1 := hcond.1
        rw [evictable] at h1
        simp at h1
        exact h1 heq.symm
      · exact ht
    case isFalse hcond =>
      rcases List.mem_cons.mp h with heq | ht
      · exact heq ▸ List.mem_cons_self _ _
      · exact List.mem_cons_of_mem _ (ih ht)

theorem evict_worst_length (v w : Nat) :
    ∀ cs : List cut, (∃ d ∈ cs, evictable v d = true ∧ d.support.length = w) →
      (evict_worst v w cs).length + 1 = cs.length := by
  intro cs
  induction cs with
  | nil => rintro ⟨d, hd, -⟩; cases hd
  | cons y t ih =>
    rintro ⟨d, hd, hde, hdw⟩
    rw [evict_worst]
    split
    case isTrue => rfl
    case isFalse hcond =>
      rw [List.length_cons, List.length_cons]
      have hdt : d ∈ t := by
        rcases List.mem_cons.mp hd with rfl | ht
        · exfalso
          apply hcond
          rw [Bool.and_eq_true]
          exact ⟨hde, by simp [hdw]⟩
        · exact ht
      rw [← ih ⟨d, hdt, hde, hdw⟩]

theorem worst_size_spec (v : Nat) (cs : List cut) :
    ∀ d ∈ cs, evictable v d = true → d.support.length ≤ worst_size v cs := by
  intro d hd hde
  exact mem_le_foldl_max (fun d : cut => d.support.length) (cs.filter (evictable v)) 0 d
    (List.mem_filter.mpr ⟨hd, hde⟩)

theorem worst_size_le (v : Nat) (cs : List cut) (k : Nat)
    (h : ∀ d ∈ cs, evictable v d = true → d.support.length ≤ k) : worst_size v cs ≤ k := by
  rw [worst_size]
  refine foldl_max_le _ _ 0 k (by omega) ?_
  intro x hx
  obtain ⟨hx1, hx2⟩ := List.mem_filter.mp hx
  exact h x hx1 hx2

theorem worst_size_attained (v : Nat) (cs : List cut) (h : cs.any (evictable v) = true) :
    ∃ d ∈ cs, evictable v d = true ∧ d.support.length = worst_size v cs := by
  rw [List.any_eq_true] at h
  obtain ⟨y, hy, hye⟩ := h
  have hyf : y ∈ cs.filter (evictable v) := List.mem_filter.mpr ⟨hy, hye⟩
  rcases foldl_max_attained (fun d : cut => d.support.length) (cs.filter (evictable v)) 0 with
    h0 | ⟨x, hx, hfx⟩
  · refine ⟨y, hy, hye, ?_⟩
    have h1 : y.support.length ≤ worst_size v cs :=
      mem_le_foldl_max (fun d : cut => d.support.length) (cs.filter (evictable v)) 0 y hyf
    have h0' : worst_size v cs = 0 := h0
    omega
  · obtain ⟨hx1, hx2⟩ := List.mem_filter.mp hx
    refine ⟨x, hx1, hx2, ?_⟩
    have hfx' : worst_size v cs = x.support.length := hfx
    exact hfx'.symm

theorem insert_cut_cases (cap v : Nat) (cs : List cut) (c : cut) :
    insert_cut cap v cs c = cs ∨
    (subsumed_or_eq cs c = false ∧ cs.length < cap ∧ insert_cut cap v cs c = cs ++ [c]) ∨
    (subsumed_or_eq cs c = false ∧ ¬ cs.length < cap ∧ cs.any (evictable v) = true ∧
      c.support.length < worst_size v cs ∧
      insert_cut cap v cs c = evict_worst v (worst_size v cs) cs ++ [c]) := by
  rw [insert_cut]
  by_cases h1 : subsumed_or_eq cs c = true
  · rw [if_pos h1]; exact Or.inl rfl
  · have h1f : subsumed_or_eq cs c = false := by
      cases h : subsumed_or_eq cs c
      · rfl
      · exact absurd h h1
    rw [if_neg h1]
    by_cases h2 : cs.length < cap
    · rw [if_pos h2]; exact Or.inr (Or.inl ⟨h1f, h2, rfl⟩)
    · rw [if_neg h2]
      by_cases h3 : (cs.any (evictable v) && decide (c.support.length < worst_size v cs)) = true
      · rw [if_pos h3]
        rw [Bool.and_eq_true, decide_eq_true_iff] at h3
        exact Or.inr (Or.inr ⟨h1f, h2, h3.1, h3.2, rfl⟩)
      · rw [if_neg h3]; exact Or.inl rfl

theorem insert_cut_mem (cap v : Nat) (cs : List cut) (c : cut) :
    ∀ x ∈ insert_cut cap v cs c, x ∈ cs ∨ x = c := by
  intro x hx
  rcases insert_cut_cases cap v cs c with he | ⟨-, -, he⟩ | ⟨-, -, -, -, he⟩
  · rw [he] at hx; exact Or.inl hx
  · rw [he] at hx
    rcases List.mem_append.mp hx with h | h
    · exact Or.inl h
    · exact Or.inr (List.mem_singleton.mp h)
  · rw [he] at hx
    rcases List.mem_append.mp hx with h | h
    · exact Or.inl (evict_worst_subset v _ cs h)
    · exact Or.inr (List.mem_singleton.mp h)

theorem insert_cut_length (cap v : Nat) (cs : List cut) (c : cut) (h : cs.length ≤ cap) :
    (insert_cut cap v cs c).length ≤ cap := by
  rcases insert_cut_cases cap v cs c with he | ⟨-, hlt, he⟩ | ⟨-, -, hany, hbetter, he⟩
  · rw [he]; exact h
  · rw [he, List.length_append]
    simp only [List.length_singleton]
    omega
  · rw [he, List.length_append]
    simp only [List.length_singleton]
    obtain ⟨d, hd, hde, hdw⟩ := worst_size_attained v cs hany
    have := evict_worst_length v (worst_size v cs) cs ⟨d, hd, hde, hdw⟩
    omega

theorem insert_cut_trivial (cap v : Nat) (cs : List cut) (c : cut)
    (h : trivial_cut v ∈ cs) : trivial_cut v ∈ insert_cut cap v cs c := by
  rcases insert_cut_cases cap v cs c with he | ⟨-, -, he⟩ | ⟨-, -, -, -, he⟩
  · rw [he]; exact h
  · rw [he]; exact List.mem_append.mpr (Or.inl h)
  · rw [he]; exact List.mem_append.mpr (Or.inl (trivial_mem_evict_worst v _ cs h))

end aig_cuts

end sat

namespace sat

theorem list_all_congr {α : Type} (f g : α → Bool) :
    ∀ l : List α, (∀ x ∈ l, f x = g x) → l.all f = l.all g := by
  intro l
  induction l with
  | nil => intro _; rfl
  | cons x xs ih =>
    intro h
    rw [List.all_cons, List.all_cons, h x (List.mem_cons_self x xs),
      ih (fun y hy => h y (List.mem_cons_of_mem _ hy))]

theorem list_foldr_xor_congr {α : Type} (f g : α → Bool) :
    ∀ l : List α, (∀ x ∈ l, f x = g x) →
      l.foldr (fun x b => xor (f x) b) false = l.foldr (fun x b => xor (g x) b) false := by
  intro l
  induction l with
  | nil => intro _; rfl
  | cons x xs ih =>
    intro h
    rw [List.foldr_cons, List.foldr_cons, h x (List.mem_cons_self x xs),
      ih (fun y hy => h y (List.mem_cons_of_mem _ hy))]

theorem lit_eval_subst (p : Nat × literal) (σ : Nat → Bool) (hp : σ p.1 = lit_eval σ p.2)
    (l : literal) : lit_eval σ (aig_cuts.root_subst p l) = lit_eval σ l := by
  rw [aig_cuts.root_subst]
  split
  case isTrue hv =>
    split
    case isTrue hs =>
      show lit_eval σ p.2.neg = lit_eval σ l
      rw [lit_eval, literal.neg]
      show xor (!p.2.sign) (σ p.2.var) = lit_eval σ l
      rw [lit_eval, hs, hv, hp, lit_eval]
      cases p.2.sign <;> cases σ p.2.var <;> rfl
    case isFalse hs =>
      have hs' : l.sign = false := by
        cases h : l.sign
        · rfl
        · exact absurd h hs
      rw [lit_eval, lit_eval, hs', hv, hp, lit_eval]
      simp
  case isFalse => rfl

theorem child_append (lits ext : List literal) (n : node) (i : Nat)
    (h : n.m_offset + i < lits.length) : child (lits ++ ext) n i = child lits n i := by
  rw [child, child, List.getD_eq_getElem?_getD, List.getD_eq_getElem?_getD,
    List.getElem?_append, if_pos h]

theorem childs_append (lits ext : List literal) (n : node)
    (h : n.m_offset + n.m_size ≤ lits.length) : childs (lits ++ ext) n = childs lits n := by
  rw [childs, childs]
  apply List.map_congr_left
  intro i hi
  rw [List.mem_range] at hi
  exact child_append lits ext n i (by omega)

theorem eval_node_append (lits ext : List literal) (n : node) (σ : Nat → Bool)
    (h : aig_cuts.arena_ok lits n) : eval_node (lits ++ ext) n σ = eval_node lits n σ := by
  cases hop : n.m_op
  case var_op => simp only [eval_node, hop]
  case no_op => simp only [eval_node, hop]
  case and_op =>
    simp only [eval_node, hop]
    rw [childs_append lits ext n (h (Or.inl hop))]
  case xor_op =>
    simp only [eval_node, hop]
    rw [childs_append lits ext n (h (Or.inr (Or.inl hop)))]
  case ite_op =>
    simp only [eval_node, hop]
    by_cases h3 : n.m_size = 3
    · have hb := h (Or.inr (Or.inr hop))
      rw [if_pos h3, if_pos h3,
        child_append lits ext n 0 (by omega),
        child_append lits ext n 1 (by omega),
        child_append lits ext n 2 (by omega)]
    · rw [if_neg h3, if_neg h3]

theorem child_subst (p : Nat × literal) (lits : List literal) (n : node) (i : Nat)
    (h : n.m_offset + i < lits.length) :
    child (lits.map (aig_cuts.root_subst p)) n i = aig_cuts.root_subst p (child lits n i) := by
  rw [child, child, List.getD_eq_getElem?_getD, List.getD_eq_getElem?_getD, List.getElem?_map,
    List.getElem?_eq_getElem h]
  rfl

theorem childs_subst (p : Nat × literal) (lits : List literal) (n : node)
    (h : n.m_offset + n.m_size ≤ lits.length) :
    childs (lits.map (aig_cuts.root_subst p)) n = (childs lits n).map (aig_cuts.root_subst p) := by
  rw [childs, childs, List.map_map]
  apply List.map_congr_left
  intro i hi
  rw [List.mem_range] at hi
  exact child_subst p lits n i (by omega)

theorem eval_node_subst (p : Nat × literal) (lits : List literal) (n : node) (σ : Nat → Bool)
    (hp : σ p.1 = lit_eval σ p.2) (h : aig_cuts.arena_ok lits n) :
    eval_node (lits.map (aig_cuts.root_subst p)) n σ = eval_node lits n σ := by
  cases hop : n.m_op
  case var_op => simp only [eval_node, hop]
  case no_op => simp only [eval_node, hop]
  case and_op =>
    simp only [eval_node, hop]
    rw [childs_subst p lits n (h (Or.inl hop)), List.all_map]
    rw [list_all_congr (lit_eval σ ∘ aig_cuts.root_subst p) (lit_eval σ) (childs lits n)
      (fun x _ => lit_eval_subst p σ hp x)]
  case xor_op =>
    simp only [eval_node, hop]
    rw [childs_subst p lits n (h (Or.inr (Or.inl hop))), List.foldr_map]
    rw [list_foldr_xor_congr (fun x => lit_eval σ (aig_cuts.root_subst p x)) (lit_eval σ)
      (childs lits n) (fun x _ => lit_eval_subst p σ hp x)]
  case ite_op =>
    simp only [eval_node, hop]
    by_cases h3 : n.m_size = 3
    · have hb := h (Or.inr (Or.inr hop))
      rw [if_pos h3, if_pos h3,
        child_subst p lits n 0 (by omega),
        child_subst p lits n 1 (by omega),
        child_subst p lits n 2 (by omega),
        lit_eval_subst p σ hp, lit_eval_subst p σ hp, lit_eval_subst p σ hp]
    · rw [if_neg h3, if_neg h3]

end sat

namespace sat

namespace aig_cuts

theorem getD_range_map {α : Type} (f : Nat → α) (k u : Nat) (d : α) (h : u < k) :
    (((List.range k).map f).getD u d) = f u := by
  rw [List.getD_eq_getElem?_getD, List.getElem?_map, List.getElem?_range h]
  rfl

theorem getD_range_map_ge {α : Type} (f : Nat → α) (k u : Nat) (d : α) (h : k ≤ u) :
    (((List.range k).map f).getD u d) = d := by
  rw [List.getD_eq_getElem?_getD, List.getElem?_eq_none (by simp; omega)]
  rfl

theorem trivial_cut_wf (v : Nat) : cut_wf (trivial_cut v) := by
  constructor
  · exact List.pairwise_singleton _ _
  · simp [trivial_cut, max_cut_width]

theorem ensure_trivial_mem (u : Nat) (cs : List cut) : trivial_cut u ∈ ensure_trivial u cs := by
  rw [ensure_trivial]
  split
  case isTrue h => exact h
  case isFalse h => exact List.mem_cons_self _ _

theorem ensure_trivial_sub (u : Nat) (cs : List cut) :
    ∀ x ∈ ensure_trivial u cs, x = trivial_cut u ∨ x ∈ cs := by
  intro x hx
  rw [ensure_trivial] at hx
  split at hx
  case isTrue h => exact Or.inr hx
  case isFalse h =>
    rcases List.mem_cons.mp hx with rfl | hx'
    · exact Or.inl rfl
    · exact Or.inr hx'

theorem insert_cut_length_max (cap v : Nat) (cs : List cut) (c : cut) :
    (insert_cut cap v cs c).length ≤ max cs.length cap := by
  rcases insert_cut_cases cap v cs c with he | ⟨-, hlt, he⟩ | ⟨-, -, hany, hbetter, he⟩
  · rw [he]; omega
  · rw [he, List.length_append]
    simp only [List.length_singleton]
    omega
  · rw [he, List.length_append]
    simp only [List.length_singleton]
    obtain ⟨d, hd, hde, hdw⟩ := worst_size_attained v cs hany
    have := evict_worst_length v (worst_size v cs) cs ⟨d, hd, hde, hdw⟩
    omega

theorem foldl_insert_mem (cap v : Nat) :
    ∀ (L : List cut) (cs0 : List cut), ∀ x ∈ L.foldl (insert_cut cap v) cs0,
      x ∈ cs0 ∨ x ∈ L := by
  intro L
  induction L with
  | nil => intro cs0 x hx; exact Or.inl hx
  | cons c L ih =>
    intro cs0 x hx
    rw [List.foldl_cons] at hx
    rcases ih (insert_cut cap v cs0 c) x hx with h | h
    · rcases insert_cut_mem cap v cs0 c x h with h' | h'
      · exact Or.inl h'
      · exact Or.inr (h' ▸ List.mem_cons_self _ _)
    · exact Or.inr (List.mem_cons_of_mem _ h)

theorem foldl_insert_trivial (cap v : Nat) :
    ∀ (L : List cut) (cs0 : List cut), trivial_cut v ∈ cs0 →
      trivial_cut v ∈ L.foldl (insert_cut cap v) cs0 := by
  intro L
  induction L with
  | nil => intro cs0 h; exact h
  | cons c L ih =>
    intro cs0 h
    rw [List.foldl_cons]
    exact ih _ (insert_cut_trivial cap v cs0 c h)

theorem foldl_insert_length (cap v : Nat) :
    ∀ (L : List cut) (cs0 : List cut),
      (L.foldl (insert_cut cap v) cs0).length ≤ max cs0.length cap := by
  intro L
  induction L with
  | nil => intro cs0; rw [List.foldl_nil]; omega
  | cons c L ih =>
    intro cs0
    rw [List.foldl_cons]
    have h1 := ih (insert_cut cap v cs0 c)
    have h2 := insert_cut_length_max cap v cs0 c
    omega

theorem augment_id_fields (st : aig_cuts) (v : Nat) :
    (augment_id st v).m_config = st.m_config ∧
    (augment_id st v).m_aig = st.m_aig ∧
    (augment_id st v).m_literals = st.m_literals ∧
    (augment_id st v).m_max_cutset_size = st.m_max_cutset_size ∧
    (augment_id st v).m_last_touched = st.m_last_touched ∧
    (augment_id st v).m_num_cut_calls = st.m_num_cut_calls ∧
    (augment_id st v).m_roots = st.m_roots ∧
    (augment_id st v).m_roots_applied = st.m_roots_applied ∧
    (augment_id st v).m_all_defs = st.m_all_defs ∧
    (augment_id st v).m_cuts.length = st.m_cuts.length := by
  refine ⟨rfl, rfl, rfl, rfl, rfl, rfl, rfl, rfl, rfl, ?_⟩
  exact List.length_set _ _ _

theorem apply_root_fields (st : aig_cuts) (p : Nat × literal) :
    (apply_root st p).m_config = st.m_config ∧
    (apply_root st p).m_aig = st.m_aig ∧
    (apply_root st p).m_max_cutset_size = st.m_max_cutset_size ∧
    (apply_root st p).m_last_touched = st.m_last_touched ∧
    (apply_root st p).m_num_cut_calls = st.m_num_cut_calls ∧
    (apply_root st p).m_roots = st.m_roots ∧
    (apply_root st p).m_roots_applied = st.m_roots_applied ∧
    (apply_root st p).m_all_defs = st.m_all_defs ∧
    (apply_root st p).m_literals.length = st.m_literals.length ∧
    (apply_root st p).m_cuts.length = st.m_cuts.length := by
  refine ⟨rfl, rfl, rfl, rfl, rfl, rfl, rfl, rfl, ?_, ?_⟩
  · exact List.length_map _ _
  · show ((List.range st.m_cuts.length).map _).length = st.m_cuts.length
    rw [List.length_map, List.length_range]

theorem foldl_apply_root_fields (ps : List (Nat × literal)) :
    ∀ st : aig_cuts,
      (ps.foldl apply_root st).m_config = st.m_config ∧
      (ps.foldl apply_root st).m_aig = st.m_aig ∧
      (ps.foldl apply_root st).m_max_cutset_size = st.m_max_cutset_size ∧
      (ps.foldl apply_root st).m_last_touched = st.m_last_touched ∧
      (ps.foldl apply_root st).m_num_cut_calls = st.m_num_cut_calls ∧
      (ps.foldl apply_root st).m_roots = st.m_roots ∧
      (ps.foldl apply_root st).m_roots_applied = st.m_roots_applied ∧
      (ps.foldl apply_root st).m_all_defs = st.m_all_defs ∧
      (ps.foldl apply_root st).m_literals.length = st.m_literals.length ∧
      (ps.foldl apply_root st).m_cuts.length = st.m_cuts.length := by
  induction ps with
  | nil => intro st; exact ⟨rfl, rfl, rfl, rfl, rfl, rfl, rfl, rfl, rfl, rfl⟩
  | cons p ps ih =>
    intro st
    have h1 := ih (apply_root st p)
    have h2 := apply_root_fields st p
    rw [List.foldl_cons]
    obtain ⟨a1, a2, a3, a4, a5, a6, a7, a8, a9, a10⟩ := h1
    obtain ⟨b1, b2, b3, b4, b5, b6, b7, b8, b9, b10⟩ := h2
    exact ⟨a1.trans b1, a2.trans b2, a3.trans b3, a4.trans b4, a5.trans b5, a6.trans b6,
      a7.trans b7, a8.trans b8, a9.trans b9, a10.trans b10⟩

end aig_cuts

end sat

namespace sat

namespace aig_cuts

theorem getD_default_of_le {α : Type} {l : List α} {u : Nat} (d : α) (h : l.length ≤ u) :
    l.getD u d = d := by
  rw [List.getD_eq_getElem?_getD, List.getElem?_eq_none h]
  rfl

theorem wf_reserve (st : aig_cuts) (k : Nat) (h : Wf st) : Wf (reserve st k) := by
  have hN : (reserve st k).m_aig.length = max st.m_aig.length k := length_padTo _ _ _
  have hcutsN : (reserve st k).m_cuts.length = max st.m_aig.length k := by
    show (padTo st.m_cuts k init_cut_set).length = _
    rw [length_padTo, h.len_cuts]
  constructor
  · exact h.cfg
  · show (padTo st.m_cuts k init_cut_set).length = (padTo st.m_aig k (fun _ => [])).length
    rw [length_padTo, length_padTo, h.len_cuts]
  · show (padTo st.m_max_cutset_size k _).length = (padTo st.m_aig k (fun _ => [])).length
    rw [length_padTo, length_padTo, h.len_max]
  · show (padTo st.m_last_touched k _).length = (padTo st.m_aig k (fun _ => [])).length
    rw [length_padTo, length_padTo, h.len_touch]
  · intro u hu
    rw [hN] at hu
    show trivial_cut u ∈ (padTo st.m_cuts k init_cut_set).getD u []
    by_cases hu2 : u < st.m_cuts.length
    · rw [getD_padTo_lt _ _ hu2]
      exact h.triv_mem u (by rw [← h.len_cuts]; exact hu2)
    · rw [getD_padTo_ge _ _ (by omega) (by rw [h.len_cuts] at hu2; omega)]
      exact List.mem_singleton.mpr rfl
  · intro u c hc
    by_cases hu2 : u < st.m_cuts.length
    · rw [show (reserve st k).m_cuts = padTo st.m_cuts k init_cut_set from rfl,
        getD_padTo_lt _ _ hu2] at hc
      exact h.cuts_wf u c hc
    · by_cases hu3 : u < (reserve st k).m_cuts.length
      · rw [show (reserve st k).m_cuts = padTo st.m_cuts k init_cut_set from rfl,
          getD_padTo_ge _ _ (by omega) (by have h1 := h.len_cuts; have h2 := hcutsN; omega)] at hc
        rw [List.mem_singleton.mp hc]
        exact trivial_cut_wf u
      · rw [getD_default_of_le [] (by omega)] at hc
        cases hc
  · intro u c hc σ hσ
    by_cases hu2 : u < st.m_cuts.length
    · rw [show (reserve st k).m_cuts = padTo st.m_cuts k init_cut_set from rfl,
        getD_padTo_lt _ _ hu2] at hc
      exact h.sound u c hc σ hσ
    · by_cases hu3 : u < (reserve st k).m_cuts.length
      · rw [show (reserve st k).m_cuts = padTo st.m_cuts k init_cut_set from rfl,
          getD_padTo_ge _ _ (by omega) (by have h1 := h.len_cuts; have h2 := hcutsN; omega)] at hc
        rw [List.mem_singleton.mp hc]
        exact trivial_cut_eval u σ
      · rw [getD_default_of_le [] (by omega)] at hc
        cases hc
  · intro v n hn
    by_cases hv2 : v < st.m_aig.length
    · rw [show (reserve st k).m_aig = padTo st.m_aig k (fun _ => []) from rfl,
        getD_padTo_lt _ _ hv2] at hn
      exact h.defs_sub v n hn
    · by_cases hv3 : v < (reserve st k).m_aig.length
      · rw [show (reserve st k).m_aig = padTo st.m_aig k (fun _ => []) from rfl,
          getD_padTo_ge _ _ (by omega) (by have h2 := hN; omega)] at hn
        cases hn
      · rw [getD_default_of_le [] (by omega)] at hn
        cases hn
  · exact h.arena

theorem wf_touch (st : aig_cuts) (v : Nat) (h : Wf st) : Wf (touch st v) := by
  constructor
  · exact h.cfg
  · exact h.len_cuts
  · exact h.len_max
  · show (st.m_last_touched.set v _).length = st.m_aig.length
    rw [List.length_set]
    exact h.len_touch
  · exact h.triv_mem
  · exact h.cuts_wf
  · exact h.sound
  · exact h.defs_sub
  · exact h.arena

theorem wf_set_root (st : aig_cuts) (v : Nat) (r : literal) (h : Wf st) :
    Wf (set_root st v r) := by
  have hcons : ∀ σ, consistent (set_root st v r) σ → consistent st σ := by
    intro σ hσ
    obtain ⟨h1, h2, h3⟩ := hσ
    exact ⟨h1, fun p hp => h2 p (List.mem_append.mpr (Or.inl hp)), h3⟩
  constructor
  · exact h.cfg
  · exact h.len_cuts
  · exact h.len_max
  · exact h.len_touch
  · exact h.triv_mem
  · exact h.cuts_wf
  · exact fun u c hc σ hσ => h.sound u c hc σ (hcons σ hσ)
  · exact h.defs_sub
  · exact h.arena

theorem wf_inc_max_cutset_size (st : aig_cuts) (v : Nat) (h : Wf st) :
    Wf (inc_max_cutset_size st v) := by
  refine wf_touch _ v ?_
  constructor
  · exact h.cfg
  · exact h.len_cuts
  · show (st.m_max_cutset_size.set v _).length = st.m_aig.length
    rw [List.length_set]
    exact h.len_max
  · exact h.len_touch
  · exact h.triv_mem
  · exact h.cuts_wf
  · exact h.sound
  · exact h.defs_sub
  · exact h.arena

end aig_cuts

end sat

namespace sat

namespace aig_cuts

theorem evict_worst_def_subset (w : Nat) : ∀ l : List node, evict_worst_def w l ⊆ l := by
  intro l
  induction l with
  | nil => intro x hx; cases hx
  | cons d t ih =>
    rw [evict_worst_def]
    split
    · intro x hx; exact List.mem_cons_of_mem d hx
    · intro x hx
      rcases List.mem_cons.mp hx with rfl | hx'
      · exact List.mem_cons_self _ _
      · exact List.mem_cons_of_mem d (ih hx')

theorem arena_ok_append (lits ext : List literal) (n : node) (h : arena_ok lits n) :
    arena_ok (lits ++ ext) n := by
  intro hop
  have := h hop
  rw [List.length_append]
  omega

theorem wf_add_var (st : aig_cuts) (v : Nat) (h : Wf st) : Wf (add_var st v) := by
  have hres := wf_reserve st (v + 1) h
  rw [add_var]
  split
  case isTrue => exact hres
  case isFalse hmem =>
    have hvlen : v < (reserve st (v + 1)).m_aig.length := by
      have := length_padTo st.m_aig (v + 1) (fun _ => [])
      show v < (padTo st.m_aig (v + 1) (fun _ => [])).length
      omega
    have hlen2 : ((reserve st (v + 1)).m_aig.set v
        ((reserve st (v + 1)).m_aig.getD v [] ++ [node.mk_var v])).length =
        (reserve st (v + 1)).m_aig.length := List.length_set _ _ _
    have hcons : ∀ σ : Nat → Bool,
        consistent { reserve st (v + 1) with
          m_aig := (reserve st (v + 1)).m_aig.set v
            ((reserve st (v + 1)).m_aig.getD v [] ++ [node.mk_var v]),
          m_all_defs := (reserve st (v + 1)).m_all_defs ++ [(v, node.mk_var v)] } σ →
        consistent (reserve st (v + 1)) σ := by
      intro σ hσ
      obtain ⟨h1, h2, h3⟩ := hσ
      exact ⟨fun p hp => h1 p (List.mem_append.mpr (Or.inl hp)), h2, h3⟩
    constructor
    · exact hres.cfg
    · show (reserve st (v + 1)).m_cuts.length = _
      rw [hlen2]
      exact hres.len_cuts
    · show (reserve st (v + 1)).m_max_cutset_size.length = _
      rw [hlen2]
      exact hres.len_max
    · show (reserve st (v + 1)).m_last_touched.length = _
      rw [hlen2]
      exact hres.len_touch
    · intro u hu
      exact hres.triv_mem u (hlen2 ▸ hu)
    · exact hres.cuts_wf
    · exact fun u c hc σ hσ => hres.sound u c hc σ (hcons σ hσ)
    · intro u n hn
      by_cases huv : v = u
      · subst huv
        rw [show ({ reserve st (v + 1) with
            m_aig := (reserve st (v + 1)).m_aig.set v
              ((reserve st (v + 1)).m_aig.getD v [] ++ [node.mk_var v]),
            m_all_defs := (reserve st (v + 1)).m_all_defs ++
              [(v, node.mk_var v)] } : aig_cuts).m_aig =
          (reserve st (v + 1)).m_aig.set v
            ((reserve st (v + 1)).m_aig.getD v [] ++ [node.mk_var v]) from rfl,
          getD_set_self _ _ hvlen] at hn
        rcases List.mem_append.mp hn with hold | hnew
        · exact List.mem_append.mpr (Or.inl (hres.defs_sub v n hold))
        · rw [List.mem_singleton.mp hnew]
          exact List.mem_append.mpr (Or.inr (List.mem_singleton.mpr rfl))
      · rw [show ({ reserve st (v + 1) with
            m_aig := (reserve st (v + 1)).m_aig.set v
              ((reserve st (v + 1)).m_aig.getD v [] ++ [node.mk_var v]),
            m_all_defs := (reserve st (v + 1)).m_all_defs ++
              [(v, node.mk_var v)] } : aig_cuts).m_aig =
          (reserve st (v + 1)).m_aig.set v
            ((reserve st (v + 1)).m_aig.getD v [] ++ [node.mk_var v]) from rfl,
          getD_set_ne _ _ huv] at hn
        exact List.mem_append.mpr (Or.inl (hres.defs_sub u n hn))
    · intro p hp
      rcases List.mem_append.mp hp with hold | hnew
      · exact hres.arena p hold
      · rw [List.mem_singleton.mp hnew]
        intro hop
        rcases hop with h1 | h1 | h1 <;> simp [node.mk_var] at h1

end aig_cuts

end sat

namespace sat

namespace aig_cuts

theorem wf_add_node (st : aig_cuts) (head : literal) (op : bool_op) (args : List literal)
    (h : Wf st) : Wf (add_node st head op args) := by
  have hres := wf_reserve st (head.var + 1) h
  have hvlen : head.var < (reserve st (head.var + 1)).m_aig.length := by
    have := length_padTo st.m_aig (head.var + 1) (fun _ => [])
    show head.var < (padTo st.m_aig (head.var + 1) (fun _ => [])).length
    omega
  rcases hia : insert_aux (reserve st (head.var + 1)).m_config
      (node.mk_node head.sign op args.length (reserve st (head.var + 1)).m_literals.length)
      ((reserve st (head.var + 1)).m_aig.getD head.var []) with _ | defs2
  · rw [add_node, hia]
    exact hres
  · rw [add_node, hia]
    have hsub : ∀ x ∈ defs2, x ∈ (reserve st (head.var + 1)).m_aig.getD head.var [] ∨
        x = node.mk_node head.sign op args.length
          (reserve st (head.var + 1)).m_literals.length := by
      rw [insert_aux] at hia
      split at hia
      · have he := Option.some.inj hia
        intro x hx
        rw [← he] at hx
        rcases List.mem_append.mp hx with h1 | h1
        · exact Or.inl h1
        · exact Or.inr (List.mem_singleton.mp h1)
      · split at hia
        · have he := Option.some.inj hia
          intro x hx
          rw [← he] at hx
          rcases List.mem_append.mp hx with h1 | h1
          · exact Or.inl (evict_worst_def_subset _ _ h1)
          · exact Or.inr (List.mem_singleton.mp h1)
        · cases hia
    refine wf_touch _ head.var ?_
    have hlen2 : ((reserve st (head.var + 1)).m_aig.set head.var defs2).length =
        (reserve st (head.var + 1)).m_aig.length := List.length_set _ _ _
    have hcons : ∀ σ : Nat → Bool,
        consistent { reserve st (head.var + 1) with
          m_literals := (reserve st (head.var + 1)).m_literals ++ args,
          m_aig := (reserve st (head.var + 1)).m_aig.set head.var defs2,
          m_all_defs := (reserve st (head.var + 1)).m_all_defs ++
            [(head.var, node.mk_node head.sign op args.length
              (reserve st (head.var + 1)).m_literals.length)] } σ →
        consistent (reserve st (head.var + 1)) σ := by
      intro σ hσ
      obtain ⟨h1, h2, h3⟩ := hσ
      refine ⟨?_, h2, h3⟩
      intro p hp
      have hp2 : σ p.1 = eval_node ((reserve st (head.var + 1)).m_literals ++ args) p.2 σ :=
        h1 p (List.mem_append.mpr (Or.inl hp))
      rw [eval_node_append (reserve st (head.var + 1)).m_literals args p.2 σ
        (hres.arena p hp)] at hp2
      exact hp2
    constructor
    · exact hres.cfg
    · show (reserve st (head.var + 1)).m_cuts.length = _
      rw [hlen2]
      exact hres.len_cuts
    · show (reserve st (head.var + 1)).m_max_cutset_size.length = _
      rw [hlen2]
      exact hres.len_max
    · show (reserve st (head.var + 1)).m_last_touched.length = _
      rw [hlen2]
      exact hres.len_touch
    · intro u hu
      exact hres.triv_mem u (hlen2 ▸ hu)
    · exact hres.cuts_wf
    · exact fun u c hc σ hσ => hres.sound u c hc σ (hcons σ hσ)
    · intro u n hn
      by_cases huv : head.var = u
      · subst huv
        rw [show ({ reserve st (head.var + 1) with
            m_literals := (reserve st (head.var + 1)).m_literals ++ args,
            m_aig := (reserve st (head.var + 1)).m_aig.set head.var defs2,
            m_all_defs := (reserve st (head.var + 1)).m_all_defs ++
              [(head.var, node.mk_node head.sign op args.length
                (reserve st (head.var + 1)).m_literals.length)] } : aig_cuts).m_aig =
          (reserve st (head.var + 1)).m_aig.set head.var defs2 from rfl,
          getD_set_self _ _ hvlen] at hn
        rcases hsub n hn with hold | hnew
        · exact List.mem_append.mpr (Or.inl (hres.defs_sub head.var n hold))
        · rw [hnew]
          exact List.mem_append.mpr (Or.inr (List.mem_singleton.mpr rfl))
      · rw [show ({ reserve st (head.var + 1) with
            m_literals := (reserve st (head.var + 1)).m_literals ++ args,
            m_aig := (reserve st (head.var + 1)).m_aig.set head.var defs2,
            m_all_defs := (reserve st (head.var + 1)).m_all_defs ++
              [(head.var, node.mk_node head.sign op args.length
                (reserve st (head.var + 1)).m_literals.length)] } : aig_cuts).m_aig =
          (reserve st (head.var + 1)).m_aig.set head.var defs2 from rfl,
          getD_set_ne _ _ huv] at hn
        exact List.mem_append.mpr (Or.inl (hres.defs_sub u n hn))
    · intro p hp
      rcases List.mem_append.mp hp with hold | hnew
      · exact arena_ok_append _ args p.2 (hres.arena p hold)
      · rw [List.mem_singleton.mp hnew]
        intro hop
        show (reserve st (head.var + 1)).m_literals.length + args.length ≤
          ((reserve st (head.var + 1)).m_literals ++ args).length
        rw [List.length_append]

end aig_cuts

end sat

namespace sat

namespace aig_cuts

theorem consistent_apply_root (st : aig_cuts) (p : Nat × literal) (σ : Nat → Bool)
    (harena : ∀ q ∈ st.m_all_defs, arena_ok st.m_literals q.2)
    (h : consistent (apply_root st p) σ) (hp : σ p.1 = lit_eval σ p.2) :
    consistent st σ := by
  obtain ⟨h1, h2, h3⟩ := h
  refine ⟨?_, h2, h3⟩
  intro q hq
  have hq' : σ q.1 = eval_node (st.m_literals.map (root_subst p)) q.2 σ := h1 q hq
  rw [eval_node_subst p st.m_literals q.2 σ hp (harena q hq)] at hq'
  exact hq'

theorem wf_apply_root (st : aig_cuts) (p : Nat × literal) (h : Wf st)
    (hpm : p ∈ st.m_roots) : Wf (apply_root st p) := by
  have hculen : ((List.range st.m_cuts.length).map (fun u =>
      ensure_trivial u ((st.m_cuts.getD u []).filter
        (fun d => !(decide (p.1 ∈ d.support)))))).length = st.m_cuts.length := by
    rw [List.length_map, List.length_range]
  constructor
  · exact h.cfg
  · show ((List.range st.m_cuts.length).map _).length = st.m_aig.length
    rw [List.length_map, List.length_range]
    exact h.len_cuts
  · exact h.len_max
  · exact h.len_touch
  · intro u hu
    show trivial_cut u ∈ ((List.range st.m_cuts.length).map _).getD u []
    rw [getD_range_map _ _ _ _ (by rw [h.len_cuts]; exact hu)]
    exact ensure_trivial_mem u _
  · intro u c hc
    by_cases hu2 : u < st.m_cuts.length
    · rw [show (apply_root st p).m_cuts = (List.range st.m_cuts.length).map (fun u =>
          ensure_trivial u ((st.m_cuts.getD u []).filter
            (fun d => !(decide (p.1 ∈ d.support))))) from rfl,
        getD_range_map _ _ _ _ hu2] at hc
      rcases ensure_trivial_sub u _ c hc with rfl | hc2
      · exact trivial_cut_wf u
      · exact h.cuts_wf u c (List.mem_filter.mp hc2).1
    · have hlen9 : (apply_root st p).m_cuts.length = st.m_cuts.length :=
        (apply_root_fields st p).2.2.2.2.2.2.2.2.2
      rw [getD_default_of_le [] (by rw [hlen9]; omega)] at hc
      cases hc
  · intro u c hc σ hσ
    by_cases hu2 : u < st.m_cuts.length
    · rw [show (apply_root st p).m_cuts = (List.range st.m_cuts.length).map (fun u =>
          ensure_trivial u ((st.m_cuts.getD u []).filter
            (fun d => !(decide (p.1 ∈ d.support))))) from rfl,
        getD_range_map _ _ _ _ hu2] at hc
      rcases ensure_trivial_sub u _ c hc with rfl | hc2
      · exact trivial_cut_eval u σ
      · have hp : σ p.1 = lit_eval σ p.2 := hσ.2.1 p hpm
        exact h.sound u c (List.mem_filter.mp hc2).1 σ
          (consistent_apply_root st p σ h.arena hσ hp)
    · have hlen9 : (apply_root st p).m_cuts.length = st.m_cuts.length :=
        (apply_root_fields st p).2.2.2.2.2.2.2.2.2
      rw [getD_default_of_le [] (by rw [hlen9]; omega)] at hc
      cases hc
  · exact h.defs_sub
  · intro q hq
    intro hop
    have h2 := h.arena q hq hop
    show q.2.m_offset + q.2.m_size ≤ (st.m_literals.map (root_subst p)).length
    rw [List.length_map]
    exact h2

theorem wf_fold_roots : ∀ (ps : List (Nat × literal)) (st : aig_cuts), Wf st →
    (∀ p ∈ ps, p ∈ st.m_roots) → Wf (ps.foldl apply_root st) := by
  intro ps
  induction ps with
  | nil => intro st h _; exact h
  | cons p ps ih =>
    intro st h hps
    rw [List.foldl_cons]
    refine ih (apply_root st p) (wf_apply_root st p h (hps p (List.mem_cons_self p ps))) ?_
    intro q hq
    show q ∈ st.m_roots
    exact hps q (List.mem_cons_of_mem p hq)

theorem wf_flush_roots (st : aig_cuts) (h : Wf st) : Wf (flush_roots st) := by
  rw [flush_roots]
  split
  case isTrue => exact h
  case isFalse hne =>
    have hf := wf_fold_roots st.m_roots st h (fun p hp => hp)
    obtain ⟨f1, f2, f3, f4, f5, f6, f7, f8, f9, f10⟩ := foldl_apply_root_fields st.m_roots st
    constructor
    · exact hf.cfg
    · exact hf.len_cuts
    · exact hf.len_max
    · exact hf.len_touch
    · exact hf.triv_mem
    · exact hf.cuts_wf
    · intro u c hc σ hσ
      refine hf.sound u c hc σ ?_
      obtain ⟨h1, h2, h3⟩ := hσ
      refine ⟨h1, ?_, ?_⟩
      · intro p hp
        rw [f6] at hp
        exact h3 p (List.mem_append.mpr (Or.inr hp))
      · intro p hp
        exact h3 p (List.mem_append.mpr (Or.inl hp))
    · exact hf.defs_sub
    · exact hf.arena

end aig_cuts

end sat

namespace sat

namespace aig_cuts

theorem big_cands_spec (st : aig_cuts) (v : Nat) (h : Wf st) :
    ∀ c ∈ big_cands st v,
      cut_wf c ∧ ∀ σ, consistent st σ → cut_eval c σ = σ v := by
  intro c hc
  rw [big_cands, List.mem_flatMap] at hc
  obtain ⟨n, hn, hcn⟩ := hc
  obtain ⟨hnm, hna⟩ := List.mem_filter.mp hn
  have hnode : ∀ σ, consistent st σ → σ v = eval_node st.m_literals n σ := by
    intro σ hσ
    exact hσ.1 (v, n) (h.defs_sub v n hnm)
  constructor
  · exact candidates_wf st.m_literals (cuts_of st) v n
      (fun u c0 hc0 => h.cuts_wf u c0 hc0) c hcn
  · exact candidates_sound st.m_literals (cuts_of st) v n (consistent st)
      (fun u c0 hc0 σ hσ => h.sound u c0 hc0 σ hσ) hnode c hcn

theorem wf_augment_id (st : aig_cuts) (v : Nat) (h : Wf st) : Wf (augment_id st v) := by
  by_cases hv : v < st.m_cuts.length
  · have hva : v < st.m_aig.length := by rw [← h.len_cuts]; exact hv
    have hLs := big_cands_spec st v h
    have hmem := foldl_insert_mem (max_cutset_size st v) v (big_cands st v) (cuts_of st v)
    constructor
    · exact h.cfg
    · show (st.m_cuts.set v _).length = st.m_aig.length
      rw [List.length_set]
      exact h.len_cuts
    · exact h.len_max
    · exact h.len_touch
    · intro u hu
      show trivial_cut u ∈ (st.m_cuts.set v _).getD u []
      by_cases huv : v = u
      · subst huv
        rw [getD_set_self _ _ hv]
        exact foldl_insert_trivial _ v _ _ (h.triv_mem v hva)
      · rw [getD_set_ne _ _ huv]
        exact h.triv_mem u hu
    · intro u c hc
      by_cases huv : v = u
      · subst huv
        rw [show (augment_id st v).m_cuts = st.m_cuts.set v
            ((big_cands st v).foldl (insert_cut (max_cutset_size st v) v) (cuts_of st v))
            from rfl, getD_set_self _ _ hv] at hc
        rcases hmem c hc with h1 | h1
        · exact h.cuts_wf v c h1
        · exact (hLs c h1).1
      · rw [show (augment_id st v).m_cuts = st.m_cuts.set v
            ((big_cands st v).foldl (insert_cut (max_cutset_size st v) v) (cuts_of st v))
            from rfl, getD_set_ne _ _ huv] at hc
        exact h.cuts_wf u c hc
    · intro u c hc σ hσ
      have hσ' : consistent st σ := hσ
      by_cases huv : v = u
      · subst huv
        rw [show (augment_id st v).m_cuts = st.m_cuts.set v
            ((big_cands st v).foldl (insert_cut (max_cutset_size st v) v) (cuts_of st v))
            from rfl, getD_set_self _ _ hv] at hc
        rcases hmem c hc with h1 | h1
        · exact h.sound v c h1 σ hσ'
        · exact (hLs c h1).2 σ hσ'
      · rw [show (augment_id st v).m_cuts = st.m_cuts.set v
            ((big_cands st v).foldl (insert_cut (max_cutset_size st v) v) (cuts_of st v))
            from rfl, getD_set_ne _ _ huv] at hc
        exact h.sound u c hc σ hσ'
    · exact h.defs_sub
    · exact h.arena
  · have he : augment_id st v = st := by
      show { st with m_cuts := st.m_cuts.set v _ } = st
      rw [List.set_eq_of_length_le (by omega)]
    rw [he]
    exact h

theorem wf_foldl_augment : ∀ (ids : List Nat) (st : aig_cuts), Wf st →
    Wf (ids.foldl augment_id st) := by
  intro ids
  induction ids with
  | nil => intro st h; exact h
  | cons v ids ih =>
    intro st h
    rw [List.foldl_cons]
    exact ih _ (wf_augment_id st v h)

theorem wf_augment_all (st : aig_cuts) (h : Wf st) : Wf (augment_all st) :=
  wf_foldl_augment (filter_valid_nodes st) st h

theorem wf_enumerate (st : aig_cuts) (h : Wf st) : Wf (enumerate st) := by
  have h2 := wf_augment_all (flush_roots st) (wf_flush_roots st h)
  constructor
  · exact h2.cfg
  · exact h2.len_cuts
  · exact h2.len_max
  · exact h2.len_touch
  · exact h2.triv_mem
  · exact h2.cuts_wf
  · exact fun u c hc σ hσ => h2.sound u c hc σ hσ
  · exact h2.defs_sub
  · exact h2.arena

theorem wf_init : Wf init := by
  constructor
  · rfl
  · rfl
  · rfl
  · rfl
  · intro u hu; simp [init] at hu
  · intro u c hc; simp [init, List.getD] at hc
  · intro u c hc; simp [init, List.getD] at hc
  · intro v n hn; simp [init, List.getD] at hn
  · intro p hp; simp [init] at hp

theorem wf_step (st : aig_cuts) (op : Op) (h : Wf st) : Wf (step st op) := by
  cases op with
  | add_var v => exact wf_add_var st v h
  | add_node hd op args => exact wf_add_node st hd op args h
  | set_root v r => exact wf_set_root st v r h
  | inc_max_cutset_size v => exact wf_inc_max_cutset_size st v h
  | enumerate => exact wf_enumerate st h

theorem wf_foldl_steps : ∀ (ops : List Op) (st : aig_cuts), Wf st →
    Wf (ops.foldl step st) := by
  intro ops
  induction ops with
  | nil => intro st h; exact h
  | cons op ops ih =>
    intro st h
    rw [List.foldl_cons]
    exact ih _ (wf_step st op h)

theorem wf_run (ops : List Op) : Wf (run ops) :=
  wf_foldl_steps ops init wf_init

end aig_cuts

end sat

namespace sat

namespace aig_cuts

theorem foldl_augment_fields (ids : List Nat) : ∀ st : aig_cuts,
    (ids.foldl augment_id st).m_config = st.m_config ∧
    (ids.foldl augment_id st).m_aig = st.m_aig ∧
    (ids.foldl augment_id st).m_literals = st.m_literals ∧
    (ids.foldl augment_id st).m_max_cutset_size = st.m_max_cutset_size ∧
    (ids.foldl augment_id st).m_last_touched = st.m_last_touched ∧
    (ids.foldl augment_id st).m_num_cut_calls = st.m_num_cut_calls ∧
    (ids.foldl augment_id st).m_roots = st.m_roots ∧
    (ids.foldl augment_id st).m_roots_applied = st.m_roots_applied ∧
    (ids.foldl augment_id st).m_all_defs = st.m_all_defs ∧
    (ids.foldl augment_id st).m_cuts.length = st.m_cuts.length := by
  induction ids with
  | nil => intro st; exact ⟨rfl, rfl, rfl, rfl, rfl, rfl, rfl, rfl, rfl, rfl⟩
  | cons v ids ih =>
    intro st
    rw [List.foldl_cons]
    obtain ⟨a1, a2, a3, a4, a5, a6, a7, a8, a9, a10⟩ := ih (augment_id st v)
    obtain ⟨b1, b2, b3, b4, b5, b6, b7, b8, b9, b10⟩ := augment_id_fields st v
    exact ⟨a1.trans b1, a2.trans b2, a3.trans b3, a4.trans b4, a5.trans b5, a6.trans b6,
      a7.trans b7, a8.trans b8, a9.trans b9, a10.trans b10⟩

theorem flush_roots_aig (st : aig_cuts) : (flush_roots st).m_aig = st.m_aig := by
  rw [flush_roots]
  split
  · rfl
  · exact (foldl_apply_root_fields st.m_roots st).2.1

theorem enumerate_aig (st : aig_cuts) : (enumerate st).m_aig = st.m_aig := by
  show (augment_all (flush_roots st)).m_aig = st.m_aig
  rw [augment_all]
  rw [(foldl_augment_fields (filter_valid_nodes (flush_roots st)) (flush_roots st)).2.1,
    flush_roots_aig]

theorem step_aig_length (st : aig_cuts) (op : Op) :
    st.m_aig.length ≤ (step st op).m_aig.length := by
  cases op with
  | add_var v =>
    show st.m_aig.length ≤ (add_var st v).m_aig.length
    rw [add_var]
    split
    · show _ ≤ (padTo st.m_aig (v + 1) (fun _ => [])).length
      rw [length_padTo]
      omega
    · show _ ≤ ((padTo st.m_aig (v + 1) (fun _ => [])).set v _).length
      rw [List.length_set, length_padTo]
      omega
  | add_node hd op args =>
    show st.m_aig.length ≤ (add_node st hd op args).m_aig.length
    rw [add_node]
    split
    · show _ ≤ ((padTo st.m_aig (hd.var + 1) (fun _ => [])).set hd.var _).length
      rw [List.length_set, length_padTo]
      omega
    · show _ ≤ (padTo st.m_aig (hd.var + 1) (fun _ => [])).length
      rw [length_padTo]
      omega
  | set_root v r => exact Nat.le_refl _
  | inc_max_cutset_size v => exact Nat.le_refl _
  | enumerate =>
    show st.m_aig.length ≤ (enumerate st).m_aig.length
    rw [enumerate_aig]

theorem foldl_step_aig_length : ∀ (ops : List Op) (st : aig_cuts),
    st.m_aig.length ≤ (ops.foldl step st).m_aig.length := by
  intro ops
  induction ops with
  | nil => intro st; exact Nat.le_refl _
  | cons op ops ih =>
    intro st
    rw [List.foldl_cons]
    exact le_trans (step_aig_length st op) (ih (step st op))

theorem run_add_var_length (ops : List Op) (v : Nat) (h : Op.add_var v ∈ ops) :
    v < (run ops).m_aig.length := by
  suffices h2 : ∀ (ops : List Op) (st : aig_cuts), Op.add_var v ∈ ops →
      v < (ops.foldl step st).m_aig.length from h2 ops init h
  intro ops
  induction ops with
  | nil => intro st h0; cases h0
  | cons op ops ih =>
    intro st hmem
    rw [List.foldl_cons]
    rcases List.mem_cons.mp hmem with rfl | hmem'
    · have h1 : v < (step st (Op.add_var v)).m_aig.length := by
        show v < (add_var st v).m_aig.length
        rw [add_var]
        split
        · show v < (padTo st.m_aig (v + 1) (fun _ => [])).length
          rw [length_padTo]
          omega
        · show v < ((padTo st.m_aig (v + 1) (fun _ => [])).set v _).length
          rw [List.length_set, length_padTo]
          omega
      have h2 := foldl_step_aig_length ops (step st (Op.add_var v))
      omega
    · exact ih _ hmem'

/-- C2: for every variable v registered via add_var, and after any sequence
of public operations (add_var, add_node, set_root, inc_max_cutset_size,
enumeration passes), v's cut-set contains the trivial identity cut with
support [v] and the identity truth table. -/
theorem C2_trivial_cut_present (ops : List Op) (v : Nat) (h : Op.add_var v ∈ ops) :
    trivial_cut v ∈ (run ops).m_cuts.getD v [] :=
  (wf_run ops).triv_mem v (run_add_var_length ops v h)

theorem C2_witness :
    trivial_cut 0 ∈ (run [Op.add_var 0]).m_cuts.getD 0 [] :=
  C2_trivial_cut_present [Op.add_var 0] 0 (by decide)

/-- C6: after every public operation, every AND/XOR/ITE node stored in the
AIG satisfies the arena invariant offset + size ≤ |m_literals|, so
child(n, idx) with idx < n.size always reads an in-bounds arena entry. -/
theorem C6_arena_invariant (ops : List Op) (v : Nat) (n : node)
    (hn : n ∈ (run ops).m_aig.getD v [])
    (hop : n.m_op = bool_op.and_op ∨ n.m_op = bool_op.xor_op ∨ n.m_op = bool_op.ite_op) :
    n.m_offset + n.m_size ≤ (run ops).m_literals.length ∧
    ∀ i < n.m_size, n.m_offset + i < (run ops).m_literals.length := by
  have h1 : n.m_offset + n.m_size ≤ (run ops).m_literals.length :=
    (wf_run ops).arena (v, n) ((wf_run ops).defs_sub v n hn) hop
  exact ⟨h1, fun i hi => by omega⟩

theorem C6_witness :
    (node.mk_node false bool_op.and_op 2 0).m_offset +
      (node.mk_node false bool_op.and_op 2 0).m_size ≤
      (run [Op.add_var 0, Op.add_var 1,
        Op.add_node ⟨2, false⟩ bool_op.and_op [⟨0, false⟩, ⟨1, false⟩]]).m_literals.length ∧
    ∀ i < (node.mk_node false bool_op.and_op 2 0).m_size,
      (node.mk_node false bool_op.and_op 2 0).m_offset + i <
        (run [Op.add_var 0, Op.add_var 1,
          Op.add_node ⟨2, false⟩ bool_op.and_op [⟨0, false⟩, ⟨1, false⟩]]).m_literals.length :=
  C6_arena_invariant [Op.add_var 0, Op.add_var 1,
    Op.add_node ⟨2, false⟩ bool_op.and_op [⟨0, false⟩, ⟨1, false⟩]] 2
    (node.mk_node false bool_op.and_op 2 0) (by decide) (by decide)

/-- C1: for every variable v that holds a valid node definition, every cut
(support, table) present in v's cut-set after an enumeration pass is
sound: for every assignment consistent with the engine's accumulated node
definitions and root equivalences (the assignments the Simulator samples),
evaluating the truth table equals evaluating v's node definition. -/
theorem C1_cut_soundness (ops : List Op) (v : Nat) (c : cut) (n : node) (σ : Nat → Bool)
    (hc : c ∈ (run (ops ++ [Op.enumerate])).m_cuts.getD v [])
    (hn : n ∈ (run (ops ++ [Op.enumerate])).m_aig.getD v [])
    (_hval : n.is_valid = true)
    (hσ : consistent (run (ops ++ [Op.enumerate])) σ) :
    cut_eval c σ = eval_node (run (ops ++ [Op.enumerate])).m_literals n σ := by
  have hwf := wf_run (ops ++ [Op.enumerate])
  have h1 : cut_eval c σ = σ v := hwf.sound v c hc σ hσ
  have h2 : σ v = eval_node (run (ops ++ [Op.enumerate])).m_literals n σ :=
    hσ.1 (v, n) (hwf.defs_sub v n hn)
  rw [h1, h2]

theorem C1_witness :
    cut_eval ⟨[0, 1], 8⟩ (fun _ => true) =
      eval_node (run ([Op.add_var 0, Op.add_var 1,
        Op.add_node ⟨2, false⟩ bool_op.and_op [⟨0, false⟩, ⟨1, false⟩]] ++
        [Op.enumerate])).m_literals (node.mk_node false bool_op.and_op 2 0) (fun _ => true) :=
  C1_cut_soundness [Op.add_var 0, Op.add_var 1,
    Op.add_node ⟨2, false⟩ bool_op.and_op [⟨0, false⟩, ⟨1, false⟩]] 2 ⟨[0, 1], 8⟩
    (node.mk_node false bool_op.and_op 2 0) (fun _ => true)
    (by decide) (by decide) (by decide) ⟨by decide, by decide, by decide⟩

end aig_cuts

end sat

namespace sat

namespace aig_cuts

theorem insert_cut_cases4 (cap v : Nat) (cs : List cut) (c : cut) :
    (subsumed_or_eq cs c = true ∧ insert_cut cap v cs c = cs) ∨
    (subsumed_or_eq cs c = false ∧ cs.length < cap ∧ insert_cut cap v cs c = cs ++ [c]) ∨
    (subsumed_or_eq cs c = false ∧ ¬ cs.length < cap ∧ cs.any (evictable v) = true ∧
      c.support.length < worst_size v cs ∧
      insert_cut cap v cs c = evict_worst v (worst_size v cs) cs ++ [c]) ∨
    (subsumed_or_eq cs c = false ∧ ¬ cs.length < cap ∧
      ¬ (cs.any (evictable v) = true ∧ c.support.length < worst_size v cs) ∧
      insert_cut cap v cs c = cs) := by
  rw [insert_cut]
  by_cases h1 : subsumed_or_eq cs c = true
  · rw [if_pos h1]
    exact Or.inl ⟨h1, rfl⟩
  · have h1f : subsumed_or_eq cs c = false := by
      cases h : subsumed_or_eq cs c
      · rfl
      · exact absurd h h1
    rw [if_neg h1]
    by_cases h2 : cs.length < cap
    · rw [if_pos h2]
      exact Or.inr (Or.inl ⟨h1f, h2, rfl⟩)
    · rw [if_neg h2]
      by_cases h3 : (cs.any (evictable v) && decide (c.support.length < worst_size v cs)) = true
      · rw [if_pos h3]
        rw [Bool.and_eq_true, decide_eq_true_iff] at h3
        exact Or.inr (Or.inr (Or.inl ⟨h1f, h2, h3.1, h3.2, rfl⟩))
      · rw [if_neg h3]
        refine Or.inr (Or.inr (Or.inr ⟨h1f, h2, ?_, rfl⟩))
        rintro ⟨ha, hb⟩
        exact h3 (by rw [Bool.and_eq_true, decide_eq_true_iff]; exact ⟨ha, hb⟩)

theorem mem_not_mem_evict (v w : Nat) :
    ∀ cs : List cut, ∀ c, c ∈ cs → c ∉ evict_worst v w cs →
      evictable v c = true ∧ c.support.length = w := by
  intro cs
  induction cs with
  | nil => intro c hc; intro _; cases hc
  | cons d t ih =>
    intro c hc hnm
    rw [evict_worst] at hnm
    split at hnm
    case isTrue hcond =>
      rcases List.mem_cons.mp hc with rfl | hct
      · rw [Bool.and_eq_true, decide_eq_true_iff] at hcond
        exact hcond
      · exact absurd hct hnm
    case isFalse hcond =>
      rcases List.mem_cons.mp hc with rfl | hct
      · exact absurd (List.mem_cons_self _ _) hnm
      · exact ih c hct (fun hmem => hnm (List.mem_cons_of_mem _ hmem))

theorem ins_inv_reject (cap v : Nat) (cs : List cut) (c : cut) (h : ins_inv cap v c cs) :
    insert_cut cap v cs c = cs := by
  rcases h with h1 | ⟨d, hd, hdn, hdsub⟩ | ⟨hfull, hbnd⟩
  · rw [insert_cut, if_pos ?_]
    rw [subsumed_or_eq, List.any_eq_true]
    exact ⟨c, h1, by simp⟩
  · rw [insert_cut, if_pos ?_]
    rw [subsumed_or_eq, List.any_eq_true]
    refine ⟨d, hd, ?_⟩
    rw [Bool.or_eq_true]
    right
    rw [List.all_eq_true]
    exact fun u hu => decide_eq_true (hdsub hu)
  · by_cases hsub : subsumed_or_eq cs c = true
    · rw [insert_cut, if_pos hsub]
    · rw [insert_cut, if_neg hsub, if_neg (by omega), if_neg ?_]
      rw [Bool.and_eq_true]
      rintro ⟨hany, hdec⟩
      rw [decide_eq_true_iff] at hdec
      have := worst_size_le v cs c.support.length hbnd
      omega

theorem ins_inv_pres (cap v : Nat) (cs : List cut) (c x : cut) (h : ins_inv cap v c cs) :
    ins_inv cap v c (insert_cut cap v cs x) := by
  rcases insert_cut_cases cap v cs x with he | ⟨-, hlt, he⟩ | ⟨-, hnlt, hany, hbet, he⟩
  · rw [he]; exact h
  · rw [he]
    rcases h with h1 | ⟨d, hd, hdn, hds⟩ | ⟨hfull, -⟩
    · exact Or.inl (List.mem_append.mpr (Or.inl h1))
    · exact Or.inr (Or.inl ⟨d, List.mem_append.mpr (Or.inl hd), hdn, hds⟩)
    · exact absurd hfull (by omega)
  · rw [he]
    have hlen : (evict_worst v (worst_size v cs) cs).length + 1 = cs.length := by
      obtain ⟨d0, hd0, hd0e, hd0w⟩ := worst_size_attained v cs hany
      exact evict_worst_length v _ cs ⟨d0, hd0, hd0e, hd0w⟩
    have hresfull : cap ≤ (evict_worst v (worst_size v cs) cs ++ [x]).length := by
      rw [List.length_append]
      simp only [List.length_singleton]
      omega
    have hboundres : ∀ k, worst_size v cs ≤ k →
        ∀ d ∈ evict_worst v (worst_size v cs) cs ++ [x], evictable v d = true →
          d.support.length ≤ k := by
      intro k hk d hd hde
      rcases List.mem_append.mp hd with hd1 | hd1
      · have := worst_size_spec v cs d (evict_worst_subset _ _ _ hd1) hde
        omega
      · rw [List.mem_singleton.mp hd1]
        omega
    rcases h with h1 | ⟨d, hd, hdn, hds⟩ | ⟨hfull, hbnd⟩
    · by_cases hcm : c ∈ evict_worst v (worst_size v cs) cs
      · exact Or.inl (List.mem_append.mpr (Or.inl hcm))
      · have hrm := mem_not_mem_evict v (worst_size v cs) cs c h1 hcm
        exact Or.inr (Or.inr ⟨hresfull, hboundres c.support.length (by omega)⟩)
    · by_cases hdm : d ∈ evict_worst v (worst_size v cs) cs
      · exact Or.inr (Or.inl ⟨d, List.mem_append.mpr (Or.inl hdm), hdn, hds⟩)
      · have hrm := mem_not_mem_evict v (worst_size v cs) cs d hd hdm
        have hdc : d.support.length ≤ c.support.length := (hdn.subperm hds).length_le
        exact Or.inr (Or.inr ⟨hresfull, hboundres c.support.length (by omega)⟩)
    · exact Or.inr (Or.inr ⟨hresfull, hboundres c.support.length (worst_size_le v cs _ hbnd)⟩)

theorem ins_inv_self (cap v : Nat) (cs : List cut) (c : cut)
    (hmemN : ∀ d ∈ cs, d.support.Nodup) : ins_inv cap v c (insert_cut cap v cs c) := by
  rcases insert_cut_cases4 cap v cs c with ⟨hsub, he⟩ | ⟨-, -, he⟩ | ⟨-, -, -, -, he⟩ |
    ⟨hsub, hnlt, hcond, he⟩
  · rw [he]
    rw [subsumed_or_eq, List.any_eq_true] at hsub
    obtain ⟨d, hd, hpred⟩ := hsub
    rw [Bool.or_eq_true] at hpred
    rcases hpred with hdc | hall
    · rw [decide_eq_true_iff] at hdc
      exact Or.inl (hdc ▸ hd)
    · rw [List.all_eq_true] at hall
      exact Or.inr (Or.inl ⟨d, hd, hmemN d hd,
        fun u hu => of_decide_eq_true (hall u hu)⟩)
  · rw [he]
    exact Or.inl (List.mem_append.mpr (Or.inr (List.mem_singleton.mpr rfl)))
  · rw [he]
    exact Or.inl (List.mem_append.mpr (Or.inr (List.mem_singleton.mpr rfl)))
  · rw [he]
    refine Or.inr (Or.inr ⟨by omega, ?_⟩)
    intro d hd hde
    by_cases hany : cs.any (evictable v) = true
    · have h2 : ¬ c.support.length < worst_size v cs := fun hw => hcond ⟨hany, hw⟩
      have := worst_size_spec v cs d hd hde
      omega
    · exact absurd (List.any_eq_true.mpr ⟨d, hd, hde⟩) hany

theorem ins_inv_fold_pres (cap v : Nat) (c : cut) :
    ∀ (L : List cut) (cs : List cut), ins_inv cap v c cs →
      ins_inv cap v c (L.foldl (insert_cut cap v) cs) := by
  intro L
  induction L with
  | nil => intro cs h; exact h
  | cons x L ih =>
    intro cs h
    rw [List.foldl_cons]
    exact ih _ (ins_inv_pres cap v cs c x h)

theorem fold_ins_inv (cap v : Nat) :
    ∀ (L : List cut) (cs0 : List cut),
      (∀ d ∈ cs0, d.support.Nodup) → (∀ d ∈ L, d.support.Nodup) →
      ∀ c ∈ L, ins_inv cap v c (L.foldl (insert_cut cap v) cs0) := by
  intro L
  induction L with
  | nil => intro cs0 _ _ c hc; cases hc
  | cons x L ih =>
    intro cs0 hN hLN c hc
    rw [List.foldl_cons]
    rcases List.mem_cons.mp hc with rfl | hc'
    · exact ins_inv_fold_pres cap v c L _ (ins_inv_self cap v cs0 c hN)
    · refine ih (insert_cut cap v cs0 x) ?_ (fun d hd => hLN d (List.mem_cons_of_mem _ hd)) c hc'
      intro d hd
      rcases insert_cut_mem cap v cs0 x d hd with h1 | h1
      · exact hN d h1
      · rw [h1]
        exact hLN x (List.mem_cons_self _ _)

theorem foldl_fixed {α β : Type} (f : β → α → β) :
    ∀ (l : List α) (b : β), (∀ a ∈ l, f b a = b) → l.foldl f b = b := by
  intro l
  induction l with
  | nil => intro b _; rfl
  | cons a l ih =>
    intro b h
    rw [List.foldl_cons, h a (List.mem_cons_self a l)]
    exact ih b (fun a' ha' => h a' (List.mem_cons_of_mem _ ha'))

end aig_cuts

end sat

namespace sat

namespace aig_cuts

theorem child_mem_childs (lits : List literal) (n : node) (i : Nat) (hi : i < n.m_size) :
    child lits n i ∈ childs lits n := by
  rw [childs, List.mem_map]
  exact ⟨i, List.mem_range.mpr hi, rfl⟩

theorem foldl_congr_fn {α β : Type} (f g : β → α → β) :
    ∀ (l : List α) (b : β), (∀ (acc : β), ∀ a ∈ l, f acc a = g acc a) →
      l.foldl f b = l.foldl g b := by
  intro l
  induction l with
  | nil => intro b _; rfl
  | cons a l ih =>
    intro b h
    rw [List.foldl_cons, List.foldl_cons, h b a (List.mem_cons_self a l)]
    exact ih _ (fun acc a' ha' => h acc a' (List.mem_cons_of_mem _ ha'))

theorem nary_cands_congr (op : bool_op) (sgn : Bool) (cutsOf cutsOf' : Nat → List cut)
    (ls : List literal) (h : ∀ l ∈ ls, cutsOf l.var = cutsOf' l.var) :
    nary_cands op sgn cutsOf ls = nary_cands op sgn cutsOf' ls := by
  cases ls with
  | nil => rfl
  | cons l0 rest =>
    rw [nary_cands, nary_cands]
    have hfold : rest.foldl (nstep op cutsOf) ((cutsOf' l0.var).map (lift1 false l0)) =
        rest.foldl (nstep op cutsOf') ((cutsOf' l0.var).map (lift1 false l0)) := by
      refine foldl_congr_fn _ _ rest _ ?_
      intro acc l hl
      rw [nstep, nstep, h l (List.mem_cons_of_mem _ hl)]
    rw [h l0 (List.mem_cons_self _ _), hfold]

theorem candidates_congr (lits : List literal) (cutsOf cutsOf' : Nat → List cut) (v : Nat)
    (n : node) (h : ∀ u, u < v → cutsOf u = cutsOf' u) :
    candidates lits cutsOf v n = candidates lits cutsOf' v n := by
  by_cases hg : ((childs lits n).all (fun l => decide (l.var < v))) = true
  case neg =>
    rw [candidates, candidates, if_neg hg, if_neg hg]
  case pos =>
    have hch : ∀ l ∈ childs lits n, l.var < v := fun l hl =>
      of_decide_eq_true (List.all_eq_true.mp hg l hl)
    have hcv : ∀ i, i < n.m_size → cutsOf (child lits n i).var = cutsOf' (child lits n i).var :=
      fun i hi => h _ (hch _ (child_mem_childs lits n i hi))
    rw [candidates, candidates, if_pos hg, if_pos hg]
    split
    case h_1 _ _ heq1 heq2 => rfl
    case h_2 _ _ heq1 heq2 => rw [hcv 0 (by omega)]
    case h_3 _ _ heq1 heq2 => rw [hcv 0 (by omega)]
    case h_4 _ _ heq1 heq2 => rw [hcv 0 (by omega), hcv 1 (by omega)]
    case h_5 _ _ heq1 heq2 => rw [hcv 0 (by omega), hcv 1 (by omega)]
    case h_6 _ _ heq1 heq2 => rw [hcv 0 (by omega), hcv 1 (by omega), hcv 2 (by omega)]
    case h_7 k _ heq1 heq2 =>
      exact nary_cands_congr bool_op.and_op n.m_sign cutsOf cutsOf' (childs lits n)
        (fun l hl => h l.var (hch l hl))
    case h_8 k _ heq1 heq2 =>
      exact nary_cands_congr bool_op.xor_op n.m_sign cutsOf cutsOf' (childs lits n)
        (fun l hl => h l.var (hch l hl))
    case h_9 => rfl

theorem flush_roots_of_nil (st : aig_cuts) (h : st.m_roots = []) : flush_roots st = st := by
  rw [flush_roots, if_pos h]

theorem enumerate_roots (st : aig_cuts) : (enumerate st).m_roots = [] := by
  show (augment_all (flush_roots st)).m_roots = []
  rw [augment_all,
    (foldl_augment_fields (filter_valid_nodes (flush_roots st)) (flush_roots st)).2.2.2.2.2.2.1]
  rw [flush_roots]
  split
  case isTrue h => exact h
  case isFalse h => rfl

theorem filter_valid_nodes_congr (stA stB : aig_cuts) (h : stA.m_aig = stB.m_aig) :
    filter_valid_nodes stA = filter_valid_nodes stB := by
  rw [filter_valid_nodes, filter_valid_nodes, h]

theorem mem_filter_valid_nodes_lt (st : aig_cuts) (v : Nat) (h : v ∈ filter_valid_nodes st) :
    v < st.m_aig.length := by
  rw [filter_valid_nodes] at h
  exact List.mem_range.mp (List.mem_filter.mp h).1

theorem pairwise_filter_valid_nodes (st : aig_cuts) :
    (filter_valid_nodes st).Pairwise (· < ·) := by
  rw [filter_valid_nodes]
  exact (List.pairwise_lt_range _).sublist (List.filter_sublist _)

theorem foldl_augment_getD_ne (ws : List Nat) :
    ∀ (st : aig_cuts) (u : Nat), (∀ w ∈ ws, w ≠ u) →
      (ws.foldl augment_id st).m_cuts.getD u [] = st.m_cuts.getD u [] := by
  induction ws with
  | nil => intro st u _; rfl
  | cons w ws ih =>
    intro st u h
    rw [List.foldl_cons, ih _ u (fun w' hw' => h w' (List.mem_cons_of_mem _ hw'))]
    have hset : (augment_id st w).m_cuts = st.m_cuts.set w
        ((big_cands st w).foldl (insert_cut (max_cutset_size st w) w) (cuts_of st w)) := rfl
    rw [hset, getD_set_ne _ _ (h w (List.mem_cons_self _ _))]

theorem stale_mono (stA stB : aig_cuts) (u : Nat)
    (hl : stA.m_last_touched = stB.m_last_touched) (ha : stA.m_aig.length = stB.m_aig.length)
    (hc : stB.m_num_cut_calls ≤ stA.m_num_cut_calls)
    (h : stale stA u = true) : stale stB u = true := by
  rw [stale, decide_eq_true_iff] at h ⊢
  rw [← hl, ← ha]
  have := Nat.mul_le_mul_right stA.m_aig.length hc
  omega

theorem is_touched_node_mono (stA stB : aig_cuts) (v : Nat) (n : node)
    (hl : stA.m_last_touched = stB.m_last_touched) (ha : stA.m_aig.length = stB.m_aig.length)
    (hlits : stA.m_literals = stB.m_literals) (hc : stB.m_num_cut_calls ≤ stA.m_num_cut_calls)
    (h : is_touched_node stA v n = true) : is_touched_node stB v n = true := by
  rw [is_touched_node, Bool.or_eq_true] at h ⊢
  rcases h with h | h
  · exact Or.inl (stale_mono stA stB v hl ha hc h)
  · right
    rw [List.any_eq_true] at h ⊢
    obtain ⟨l, hlm, hlt⟩ := h
    exact ⟨l, hlits ▸ hlm, stale_mono stA stB l.var hl ha hc hlt⟩

theorem applicable_mono (stA stB : aig_cuts) (v : Nat) (n : node)
    (hl : stA.m_last_touched = stB.m_last_touched) (ha : stA.m_aig.length = stB.m_aig.length)
    (hlits : stA.m_literals = stB.m_literals) (hc : stB.m_num_cut_calls ≤ stA.m_num_cut_calls)
    (h : applicable stA v n = true) : applicable stB v n = true := by
  rw [applicable, Bool.and_eq_true] at h ⊢
  exact ⟨h.1, is_touched_node_mono stA stB v n hl ha hlits hc h.2⟩

theorem big_cands_sub (stA stB : aig_cuts) (v : Nat)
    (haig : stA.m_aig = stB.m_aig) (hlits : stA.m_literals = stB.m_literals)
    (htch : stA.m_last_touched = stB.m_last_touched)
    (hc : stB.m_num_cut_calls ≤ stA.m_num_cut_calls)
    (hcuts : ∀ u, u < v → cuts_of stA u = cuts_of stB u) :
    ∀ c ∈ big_cands stA v, c ∈ big_cands stB v := by
  intro c hc0
  rw [big_cands, List.mem_flatMap] at hc0 ⊢
  obtain ⟨n, hn, hcn⟩ := hc0
  obtain ⟨hnm, hna⟩ := List.mem_filter.mp hn
  refine ⟨n, List.mem_filter.mpr ⟨haig ▸ hnm,
    applicable_mono stA stB v n htch (by rw [haig]) hlits hc hna⟩, ?_⟩
  rw [← hlits, ← candidates_congr stA.m_literals (cuts_of stA) (cuts_of stB) v n hcuts]
  exact hcn

end aig_cuts

end sat

namespace sat

namespace aig_cuts

theorem enumerate_fields (st : aig_cuts) :
    (enumerate st).m_config = (flush_roots st).m_config ∧
    (enumerate st).m_aig = (flush_roots st).m_aig ∧
    (enumerate st).m_literals = (flush_roots st).m_literals ∧
    (enumerate st).m_max_cutset_size = (flush_roots st).m_max_cutset_size ∧
    (enumerate st).m_last_touched = (flush_roots st).m_last_touched ∧
    (enumerate st).m_num_cut_calls = (flush_roots st).m_num_cut_calls + 1 := by
  obtain ⟨a1, a2, a3, a4, a5, a6, -⟩ :=
    foldl_augment_fields (filter_valid_nodes (flush_roots st)) (flush_roots st)
  refine ⟨a1, a2, a3, a4, a5, ?_⟩
  show (augment_all (flush_roots st)).m_num_cut_calls + 1 = (flush_roots st).m_num_cut_calls + 1
  rw [augment_all, a6]

theorem augment_pass2_fixed (st : aig_cuts) (h : Wf st) (v : Nat)
    (hv : v ∈ filter_valid_nodes (enumerate st)) :
    augment_id (enumerate st) v = enumerate st := by
  have hWf1 : Wf (flush_roots st) := wf_flush_roots st h
  have hWfF : Wf (enumerate st) := wf_enumerate st h
  obtain ⟨e1, e2, e3, e4, e5, e6⟩ := enumerate_fields st
  have hv1 : v ∈ filter_valid_nodes (flush_roots st) := by
    rw [← filter_valid_nodes_congr (enumerate st) (flush_roots st) e2]
    exact hv
  have hvlt : v < (flush_roots st).m_aig.length := mem_filter_valid_nodes_lt _ v hv1
  obtain ⟨pre, post, hsplit⟩ := List.append_of_mem hv1
  have hpw : (filter_valid_nodes (flush_roots st)).Pairwise (· < ·) :=
    pairwise_filter_valid_nodes (flush_roots st)
  rw [hsplit, List.pairwise_append] at hpw
  obtain ⟨hpre, hvpost, hcross⟩ := hpw
  rw [List.pairwise_cons] at hvpost
  have hpost : ∀ w ∈ post, v < w := hvpost.1
  obtain ⟨m1, m2, m3, m4, m5, m6, m7, m8, m9, m10⟩ :=
    foldl_augment_fields pre (flush_roots st)
  have henum : (enumerate st).m_cuts =
      ((pre ++ v :: post).foldl augment_id (flush_roots st)).m_cuts := by
    rw [← hsplit]
    rfl
  have hmidlen : v < (pre.foldl augment_id (flush_roots st)).m_cuts.length := by
    rw [m10, hWf1.len_cuts]
    exact hvlt
  have hcutv : (enumerate st).m_cuts.getD v [] =
      (big_cands (pre.foldl augment_id (flush_roots st)) v).foldl
        (insert_cut (max_cutset_size (pre.foldl augment_id (flush_roots st)) v) v)
        (cuts_of (pre.foldl augment_id (flush_roots st)) v) := by
    rw [henum, List.foldl_append, List.foldl_cons]
    rw [foldl_augment_getD_ne post _ v (fun w hw => by have := hpost w hw; omega)]
    have hset : (augment_id (pre.foldl augment_id (flush_roots st)) v).m_cuts =
        (pre.foldl augment_id (flush_roots st)).m_cuts.set v
          ((big_cands (pre.foldl augment_id (flush_roots st)) v).foldl
            (insert_cut (max_cutset_size (pre.foldl augment_id (flush_roots st)) v) v)
            (cuts_of (pre.foldl augment_id (flush_roots st)) v)) := rfl
    rw [hset, getD_set_self _ _ hmidlen]
  have hcuts_lt : ∀ u, u < v → (enumerate st).m_cuts.getD u [] =
      (pre.foldl augment_id (flush_roots st)).m_cuts.getD u [] := by
    intro u hu
    rw [henum, List.foldl_append]
    refine foldl_augment_getD_ne (v :: post) _ u ?_
    intro w hw
    rcases List.mem_cons.mp hw with rfl | hw'
    · omega
    · have := hpost w hw'
      omega
  have hWfmid : Wf (pre.foldl augment_id (flush_roots st)) := wf_foldl_augment pre _ hWf1
  have hNbase : ∀ d ∈ cuts_of (pre.foldl augment_id (flush_roots st)) v, d.support.Nodup :=
    fun d hd => (hWfmid.cuts_wf v d hd).1.imp (fun hab => Nat.ne_of_lt hab)
  have hNL : ∀ d ∈ big_cands (pre.foldl augment_id (flush_roots st)) v, d.support.Nodup :=
    fun d hd => ((big_cands_spec _ v hWfmid d hd).1).1.imp (fun hab => Nat.ne_of_lt hab)
  have hinv := fold_ins_inv (max_cutset_size (pre.foldl augment_id (flush_roots st)) v) v
    (big_cands (pre.foldl augment_id (flush_roots st)) v)
    (cuts_of (pre.foldl augment_id (flush_roots st)) v) hNbase hNL
  have hsub : ∀ c ∈ big_cands (enumerate st) v,
      c ∈ big_cands (pre.foldl augment_id (flush_roots st)) v := by
    refine big_cands_sub _ _ v ?_ ?_ ?_ ?_ ?_
    · rw [e2, m2]
    · rw [e3, m3]
    · rw [e5, m5]
    · rw [e6, m6]
      omega
    · intro u hu
      show (enumerate st).m_cuts.getD u [] = _
      exact hcuts_lt u hu
  have hcap : max_cutset_size (enumerate st) v =
      max_cutset_size (pre.foldl augment_id (flush_roots st)) v := by
    rw [max_cutset_size, max_cutset_size, e1, m1, e4, m4]
  have hstep : ∀ c ∈ big_cands (enumerate st) v,
      insert_cut (max_cutset_size (enumerate st) v) v (cuts_of (enumerate st) v) c =
        cuts_of (enumerate st) v := by
    intro c hc
    show insert_cut _ v ((enumerate st).m_cuts.getD v []) c = (enumerate st).m_cuts.getD v []
    rw [hcap, hcutv]
    exact ins_inv_reject _ _ _ _ (hinv c (hsub c hc))
  have hfold : (big_cands (enumerate st) v).foldl
      (insert_cut (max_cutset_size (enumerate st) v) v) (cuts_of (enumerate st) v) =
      cuts_of (enumerate st) v :=
    foldl_fixed _ _ _ hstep
  have hFlen : v < (enumerate st).m_cuts.length := by
    have h1 := hWfF.len_cuts
    have h2 : (enumerate st).m_aig.length = (flush_roots st).m_aig.length := by rw [e2]
    omega
  have hshow : augment_id (enumerate st) v = { enumerate st with m_cuts := (enumerate st).m_cuts.set v ((big_cands (enumerate st) v).foldl (insert_cut (max_cutset_size (enumerate st) v) v) (cuts_of (enumerate st) v)) } := rfl
  have hco : cuts_of (enumerate st) v = (enumerate st).m_cuts.getD v [] := rfl
  rw [hshow, hfold, hco, set_getD_self _ hFlen]

end aig_cuts

end sat

namespace sat

namespace aig_cuts

/-- C4: the enumeration pass is idempotent.  From any reachable state,
running operator() twice in a row with no intervening call to add_var,
add_node, set_root, or inc_max_cutset_size yields after the second call
exactly the same cut-set collection as after the first call. -/
theorem C4_operator_idempotent (ops : List Op) :
    (enumerate (enumerate (run ops))).m_cuts = (enumerate (run ops)).m_cuts := by
  have hE : (enumerate (enumerate (run ops))).m_cuts =
      (augment_all (flush_roots (enumerate (run ops)))).m_cuts := by
    have h0 : ∀ s : aig_cuts, (enumerate s).m_cuts = (augment_all (flush_roots s)).m_cuts :=
      fun s => rfl
    exact h0 (enumerate (run ops))
  rw [hE, flush_roots_of_nil _ (enumerate_roots (run ops)), augment_all]
  rw [foldl_fixed augment_id (filter_valid_nodes (enumerate (run ops))) (enumerate (run ops))
    (fun v hv => augment_pass2_fixed (run ops) (wf_run ops) v hv)]

end aig_cuts

end sat

namespace sat

namespace aig_cuts

theorem cap_inv_reserve (st : aig_cuts) (k : Nat) (h : Wf st) (hc : cap_inv st) :
    cap_inv (reserve st k) := by
  intro u hu
  have hN : (reserve st k).m_aig.length = max st.m_aig.length k := length_padTo _ _ _
  rw [hN] at hu
  constructor
  · show 20 ≤ (padTo st.m_max_cutset_size k (fun _ => st.m_config.m_max_cutset_size)).getD u 0
    by_cases hu2 : u < st.m_max_cutset_size.length
    · rw [getD_padTo_lt _ _ hu2]
      exact (hc u (by rw [← h.len_max]; exact hu2)).1
    · rw [getD_padTo_ge _ _ (by omega) (by rw [h.len_max] at hu2; omega)]
      rw [h.cfg]
      exact Nat.le_refl _
  · show ((padTo st.m_cuts k init_cut_set).getD u []).length ≤
      (padTo st.m_max_cutset_size k (fun _ => st.m_config.m_max_cutset_size)).getD u 0
    by_cases hu2 : u < st.m_cuts.length
    · rw [getD_padTo_lt _ _ hu2, getD_padTo_lt _ _ (by rw [h.len_max, ← h.len_cuts]; exact hu2)]
      exact (hc u (by rw [← h.len_cuts]; exact hu2)).2
    · rw [getD_padTo_ge _ _ (by omega) (by rw [h.len_cuts] at hu2; omega),
        getD_padTo_ge _ _ (by rw [h.len_max, ← h.len_cuts]; omega)
          (by rw [h.len_cuts] at hu2; omega)]
      rw [h.cfg]
      show (1 : Nat) ≤ 20
      omega

theorem cap_inv_touch (st : aig_cuts) (v : Nat) (hc : cap_inv st) : cap_inv (touch st v) := hc

theorem cap_inv_set_root (st : aig_cuts) (v : Nat) (r : literal) (hc : cap_inv st) :
    cap_inv (set_root st v r) := hc

theorem cap_inv_inc (st : aig_cuts) (v : Nat) (hc : cap_inv st)
    (hs : st.m_max_cutset_size.getD v 0 + 10 < 4294967296) :
    cap_inv (inc_max_cutset_size st v) := by
  intro u hu
  have hu2 : u < st.m_aig.length := hu
  obtain ⟨h1, h2⟩ := hc u hu2
  have hmax : (inc_max_cutset_size st v).m_max_cutset_size =
      st.m_max_cutset_size.set v (u32 (st.m_max_cutset_size.getD v 0 + 10)) := rfl
  have hcuts : (inc_max_cutset_size st v).m_cuts = st.m_cuts := rfl
  rw [hmax, hcuts]
  by_cases huv : v = u
  · subst huv
    by_cases hvl : v < st.m_max_cutset_size.length
    · rw [getD_set_self _ _ hvl]
      rw [show u32 (st.m_max_cutset_size.getD v 0 + 10) =
          st.m_max_cutset_size.getD v 0 + 10 from Nat.mod_eq_of_lt hs]
      omega
    · rw [List.set_eq_of_length_le (by omega)]
      exact ⟨h1, h2⟩
  · rw [getD_set_ne _ _ huv]
    exact ⟨h1, h2⟩

theorem cap_inv_add_var (st : aig_cuts) (v : Nat) (h : Wf st) (hc : cap_inv st) :
    cap_inv (add_var st v) := by
  have hres := cap_inv_reserve st (v + 1) h hc
  rw [add_var]
  split
  case isTrue => exact hres
  case isFalse =>
    intro u hu
    have hlen2 : ((reserve st (v + 1)).m_aig.set v
        ((reserve st (v + 1)).m_aig.getD v [] ++ [node.mk_var v])).length =
        (reserve st (v + 1)).m_aig.length := List.length_set _ _ _
    exact hres u (by rw [← hlen2]; exact hu)

theorem cap_inv_add_node (st : aig_cuts) (head : literal) (op : bool_op) (args : List literal)
    (h : Wf st) (hc : cap_inv st) : cap_inv (add_node st head op args) := by
  have hres := cap_inv_reserve st (head.var + 1) h hc
  rcases hia : insert_aux (reserve st (head.var + 1)).m_config
      (node.mk_node head.sign op args.length (reserve st (head.var + 1)).m_literals.length)
      ((reserve st (head.var + 1)).m_aig.getD head.var []) with _ | defs2
  · rw [add_node, hia]
    exact hres
  · rw [add_node, hia]
    refine cap_inv_touch _ head.var ?_
    intro u hu
    have hlen2 : ((reserve st (head.var + 1)).m_aig.set head.var defs2).length =
        (reserve st (head.var + 1)).m_aig.length := List.length_set _ _ _
    exact hres u (by rw [← hlen2]; exact hu)

theorem cap_inv_apply_root (st : aig_cuts) (p : Nat × literal) (h : Wf st)
    (hc : cap_inv st) : cap_inv (apply_root st p) := by
  intro u hu
  have hu2 : u < st.m_aig.length := hu
  obtain ⟨h1, h2⟩ := hc u hu2
  have hcap : (apply_root st p).m_max_cutset_size = st.m_max_cutset_size := rfl
  constructor
  · rw [hcap]
    exact h1
  · rw [hcap]
    show (((List.range st.m_cuts.length).map _).getD u []).length ≤ _
    rw [getD_range_map _ _ _ _ (by rw [h.len_cuts]; exact hu2)]
    rw [ensure_trivial]
    split
    case isTrue =>
      have hf := List.length_filter_le (fun d => !(decide (p.1 ∈ d.support)))
        (st.m_cuts.getD u [])
      omega
    case isFalse hnm =>
      rw [List.length_cons]
      have hflt : ((st.m_cuts.getD u []).filter
          (fun d => !(decide (p.1 ∈ d.support)))).length < (st.m_cuts.getD u []).length := by
        rw [List.length_filter_lt_length_iff_exists]
        exact ⟨trivial_cut u, h.triv_mem u hu2,
          fun hpred => hnm (List.mem_filter.mpr ⟨h.triv_mem u hu2, hpred⟩)⟩
      omega

theorem cap_inv_fold_roots : ∀ (ps : List (Nat × literal)) (st : aig_cuts), Wf st →
    (∀ p ∈ ps, p ∈ st.m_roots) → cap_inv st → cap_inv (ps.foldl apply_root st) := by
  intro ps
  induction ps with
  | nil => intro st _ _ hc; exact hc
  | cons p ps ih =>
    intro st h hps hc
    rw [List.foldl_cons]
    refine ih _ (wf_apply_root st p h (hps p (List.mem_cons_self p ps))) ?_
      (cap_inv_apply_root st p h hc)
    intro q hq
    show q ∈ st.m_roots
    exact hps q (List.mem_cons_of_mem p hq)

theorem cap_inv_flush_roots (st : aig_cuts) (h : Wf st) (hc : cap_inv st) :
    cap_inv (flush_roots st) := by
  rw [flush_roots]
  split
  case isTrue => exact hc
  case isFalse =>
    intro u hu
    exact cap_inv_fold_roots st.m_roots st h (fun p hp => hp) hc u hu

theorem cap_inv_augment_id (st : aig_cuts) (v : Nat) (h : Wf st) (hc : cap_inv st) :
    cap_inv (augment_id st v) := by
  by_cases hv : v < st.m_cuts.length
  · have hva : v < st.m_aig.length := by rw [← h.len_cuts]; exact hv
    have hcap : max_cutset_size st v ≤ st.m_max_cutset_size.getD v 0 := by
      rw [max_cutset_size]
      split
      · rw [h.cfg]
        exact (hc v hva).1
      · exact Nat.le_refl _
    intro u hu
    have hu2 : u < st.m_aig.length := hu
    obtain ⟨h1, h2⟩ := hc u hu2
    have hmax : (augment_id st v).m_max_cutset_size = st.m_max_cutset_size := rfl
    refine ⟨by rw [hmax]; exact h1, ?_⟩
    rw [hmax]
    show ((st.m_cuts.set v _).getD u []).length ≤ st.m_max_cutset_size.getD u 0
    by_cases huv : v = u
    · subst huv
      rw [getD_set_self _ _ hv]
      have hl := foldl_insert_length (max_cutset_size st v) v (big_cands st v) (cuts_of st v)
      have h3 : (cuts_of st v).length ≤ st.m_max_cutset_size.getD v 0 := h2
      omega
    · rw [getD_set_ne _ _ huv]
      exact h2
  · have he : augment_id st v = st := by
      show { st with m_cuts := st.m_cuts.set v _ } = st
      rw [List.set_eq_of_length_le (by omega)]
    rw [he]
    exact hc

theorem cap_inv_foldl_augment : ∀ (ids : List Nat) (st : aig_cuts), Wf st → cap_inv st →
    cap_inv (ids.foldl augment_id st) := by
  intro ids
  induction ids with
  | nil => intro st _ hc; exact hc
  | cons v ids ih =>
    intro st h hc
    rw [List.foldl_cons]
    exact ih _ (wf_augment_id st v h) (cap_inv_augment_id st v h hc)

theorem cap_inv_enumerate (st : aig_cuts) (h : Wf st) (hc : cap_inv st) :
    cap_inv (enumerate st) := by
  intro u hu
  exact cap_inv_foldl_augment (filter_valid_nodes (flush_roots st)) (flush_roots st)
    (wf_flush_roots st h) (cap_inv_flush_roots st h hc) u hu

theorem cap_inv_step (st : aig_cuts) (op : Op) (h : Wf st) (hc : cap_inv st)
    (hs : cap_safe st op = true) : cap_inv (step st op) := by
  cases op with
  | add_var v => exact cap_inv_add_var st v h hc
  | add_node hd op args => exact cap_inv_add_node st hd op args h hc
  | set_root v r => exact cap_inv_set_root st v r hc
  | inc_max_cutset_size v => exact cap_inv_inc st v hc (of_decide_eq_true hs)
  | enumerate => exact cap_inv_enumerate st h hc

theorem cap_inv_foldl_steps : ∀ (ops : List Op) (st : aig_cuts), Wf st → cap_inv st →
    ops_cap_safe st ops = true → cap_inv (ops.foldl step st) := by
  intro ops
  induction ops with
  | nil => intro st _ hc _; exact hc
  | cons op ops ih =>
    intro st h hc hs
    rw [show ops_cap_safe st (op :: ops) =
        (cap_safe st op && ops_cap_safe (step st op) ops) from rfl,
      Bool.and_eq_true] at hs
    rw [List.foldl_cons]
    exact ih _ (wf_step st op h) (cap_inv_step st op h hc hs.1) hs.2

theorem cap_inv_init : cap_inv init := by
  intro u hu
  simp [init] at hu

end aig_cuts

end sat

namespace sat

namespace aig_cuts

theorem rep_inc_cuts (v : Nat) : ∀ (k : Nat) (st : aig_cuts),
    ((List.replicate k (Op.inc_max_cutset_size v)).foldl step st).m_cuts = st.m_cuts := by
  intro k
  induction k with
  | zero => intro st; rfl
  | succ k ih =>
    intro st
    rw [List.replicate_succ, List.foldl_cons, ih (step st (Op.inc_max_cutset_size v))]
    rfl

theorem rep_inc_cap (v : Nat) : ∀ (k : Nat) (st : aig_cuts),
    v < st.m_max_cutset_size.length →
    st.m_max_cutset_size.getD v 0 < 4294967296 →
    ((List.replicate k (Op.inc_max_cutset_size v)).foldl step st).m_max_cutset_size.getD v 0 =
      (st.m_max_cutset_size.getD v 0 + 10 * k) % 4294967296 := by
  intro k
  induction k with
  | zero =>
    intro st hv hlt
    show st.m_max_cutset_size.getD v 0 = _
    rw [Nat.mul_zero, Nat.add_zero, Nat.mod_eq_of_lt hlt]
  | succ k ih =>
    intro st hv hlt
    rw [List.replicate_succ, List.foldl_cons]
    have hstep : (step st (Op.inc_max_cutset_size v)).m_max_cutset_size =
        st.m_max_cutset_size.set v (u32 (st.m_max_cutset_size.getD v 0 + 10)) := rfl
    have hv1 : v < (step st (Op.inc_max_cutset_size v)).m_max_cutset_size.length := by
      rw [hstep, List.length_set]
      exact hv
    have hlt1 : (step st (Op.inc_max_cutset_size v)).m_max_cutset_size.getD v 0 <
        4294967296 := by
      rw [hstep, getD_set_self _ _ hv]
      exact Nat.mod_lt _ (by omega)
    rw [ih (step st (Op.inc_max_cutset_size v)) hv1 hlt1, hstep, getD_set_self _ _ hv]
    show ((st.m_max_cutset_size.getD v 0 + 10) % 4294967296 + 10 * k) % 4294967296 = _
    rw [Nat.mod_add_mod]
    congr 1
    omega

/-- C3 (corrected): after any sequence of public operations along which no
capacity increment wraps (inc_max_cutset_size's += 10 is 32-bit unsigned
arithmetic), the cardinality of every variable's cut-set never exceeds its
configured maximum m_max_cutset_size[v] (initially the global default of
20, possibly raised by inc_max_cutset_size).  Without the wrap-freedom
proviso the bound fails: the companion counterexample wraps a capacity
below an already attained cut-set cardinality. -/
theorem C3_cutset_size_bounded (ops : List Op) (v : Nat)
    (h : v < (run ops).m_cuts.length) (hs : ops_cap_safe init ops = true) :
    ((run ops).m_cuts.getD v []).length ≤ (run ops).m_max_cutset_size.getD v 0 := by
  have hc := cap_inv_foldl_steps ops init wf_init cap_inv_init hs
  have hlen := (wf_run ops).len_cuts
  have hv : v < (run ops).m_aig.length := by omega
  exact (hc v hv).2

theorem C3_witness :
    ((run [Op.add_var 0]).m_cuts.getD 0 []).length ≤
      (run [Op.add_var 0]).m_max_cutset_size.getD 0 0 :=
  C3_cutset_size_bounded [Op.add_var 0] 0 (by decide) (by decide)

/-- Without wrap-freedom the capacity bound fails at a type-valid reachable
state: the setup builds a cut-set of cardinality 5 under capacity 20, and
429496728 capacity increments wrap the capacity to
(20 + 4294967280) mod 2^32 = 4 < 5. -/
theorem C3_counterexample :
    (run ([Op.add_var 0, Op.add_var 1, Op.add_var 2, Op.add_var 3,
        Op.add_node ⟨4, false⟩ bool_op.and_op [⟨0, false⟩, ⟨1, false⟩],
        Op.add_node ⟨4, false⟩ bool_op.and_op [⟨0, false⟩, ⟨2, false⟩],
        Op.add_node ⟨4, false⟩ bool_op.and_op [⟨1, false⟩, ⟨2, false⟩],
        Op.add_node ⟨4, false⟩ bool_op.and_op [⟨0, false⟩, ⟨3, false⟩],
        Op.enumerate] ++
        List.replicate 429496728 (Op.inc_max_cutset_size 4))).m_max_cutset_size.getD 4 0 <
      ((run ([Op.add_var 0, Op.add_var 1, Op.add_var 2, Op.add_var 3,
        Op.add_node ⟨4, false⟩ bool_op.and_op [⟨0, false⟩, ⟨1, false⟩],
        Op.add_node ⟨4, false⟩ bool_op.and_op [⟨0, false⟩, ⟨2, false⟩],
        Op.add_node ⟨4, false⟩ bool_op.and_op [⟨1, false⟩, ⟨2, false⟩],
        Op.add_node ⟨4, false⟩ bool_op.and_op [⟨0, false⟩, ⟨3, false⟩],
        Op.enumerate] ++
        List.replicate 429496728 (Op.inc_max_cutset_size 4))).m_cuts.getD 4 []).length := by
  rw [run, List.foldl_append, rep_inc_cuts 4 429496728 _,
    rep_inc_cap 4 429496728 _ (by decide) (by decide)]
  decide

end aig_cuts

end sat
